import Mathlib

/-!
Verification development for the bibliography name-formatting core
(`splitnames.py`, `authfmt.py`, `bibfmt.py`,
`last_name_format_transition/authfmt_t.py`).

Python strings are modelled as `List Char` (`Word`); Python's
`str.isalpha` / `str.isupper` are modelled by `Char.isAlpha` /
`Char.isUpper` (exact on ASCII, the domain of the bibliography's names).
Python exceptions are modelled by `Except PyErr`.  Note that in
`split_latex_to_sections` the three `InvalidName` raise sites format the
variable `name`, which is not bound in that function (its parameter is
`latex_string`), so reaching any of those sites actually raises
`NameError`; this is modelled by `PyErr.nameError`.  The bare
`next(nameiter)` raises `StopIteration` at the end of the input
(`PyErr.stopIteration`), and out-of-range indexing raises `IndexError`
(`PyErr.indexError`).
-/

/-- Characters written via codes so that brace characters never appear
literally in the file. -/
def lbrace : Char := Char.ofNat 123

/-- The closing-brace character. -/
def rbrace : Char := Char.ofNat 125

/-- The backslash character. -/
def bslash : Char := '\\'

/-- A Python string. -/
abbrev Word := List Char

/-- `whitespace = set(" ~\r\n\t")` from `split_latex_to_sections`. -/
def whitespaceChars : List Char := [' ', '~', '\r', '\n', '\t']

/-- `char in whitespace`. -/
def isWhite (c : Char) : Bool := whitespaceChars.contains c

/-- The exception kinds that can escape the name-splitting core. -/
inductive PyErr where
  | invalidName (msg : String)
  | nameError
  | stopIteration
  | indexError
deriving Repr, DecidableEq

/-- The loop state of `split_latex_to_sections`.  Python keeps
`sections`/`cases` as lists whose final element is the section under
construction; here `done`/`doneCases` are the completed sections and
`cur`/`curCases` the one under construction. -/
structure TokState where
  done : List (List Word)
  doneCases : List (List Int)
  cur : List Word
  curCases : List Int
  word : Word
  caseSig : Int
  level : Nat
  bracestart : Bool
  controlseq : Bool
  specialchar : Bool
deriving Repr, DecidableEq

/-- The initial state of the scan (`specialchar = None` is falsy, modelled
as `false`). -/
def initTok : TokState :=
  { done := [], doneCases := [], cur := [], curCases := [],
    word := [], caseSig := -1, level := 0,
    bracestart := false, controlseq := true, specialchar := false }

/-- The case-detection update used whenever a character may determine the
case of the current word (`if (case == -1) and ch.isalpha(): ...`). -/
def updCase (cas : Int) (c : Char) : Int :=
  if cas = -1 ∧ c.isAlpha then (if c.isUpper then 1 else 0) else cas

/-- One iteration of the scanning loop of `split_latex_to_sections` for a
character that is not a backslash (or for the whitespace character an
escape fell through to).  The state is destructured and rebuilt field by
field (the comma/whitespace branch inlines the `if word:` flush of the
current word); every non-`{` branch clears `bracestart`. -/
def procMain (strict : Bool) (st : TokState) (c : Char) : Except PyErr TokState :=
  match st with
  | ⟨done, dcs, cur, ccs, word, cas, level, _bs, cseq, sc⟩ =>
    if c = lbrace then
      .ok ⟨done, dcs, cur, ccs, word ++ [c], cas, level + 1, true, false, false⟩
    else if c = rbrace then
      if level ≠ 0 then
        .ok ⟨done, dcs, cur, ccs, word ++ [c], cas, level - 1, false, false, false⟩
      else if strict then .error .nameError
      else .ok ⟨done, dcs, cur, ccs, lbrace :: word ++ [c], cas, level, false, false, false⟩
    else if level ≠ 0 then
      if cseq then
        .ok ⟨done, dcs, cur, ccs, word ++ [c], cas, level, false, c.isAlpha, sc⟩
      else if sc then
        .ok ⟨done, dcs, cur, ccs, word ++ [c], updCase cas c, level, false, cseq, sc⟩
      else .ok ⟨done, dcs, cur, ccs, word ++ [c], cas, level, false, cseq, sc⟩
    else if c = ',' ∨ isWhite c then
      match word with
      | [] =>
        if c = ',' then
          if done.length + 1 < 3 then
            .ok ⟨done ++ [cur], dcs ++ [ccs], [], [], [], cas, level, false, cseq, sc⟩
          else if strict then .error .nameError
          else .ok ⟨done, dcs, cur, ccs, [], cas, level, false, cseq, sc⟩
        else .ok ⟨done, dcs, cur, ccs, [], cas, level, false, cseq, sc⟩
      | w0 :: wrest =>
        if c = ',' then
          if done.length + 1 < 3 then
            .ok ⟨done ++ [cur ++ [w0 :: wrest]], dcs ++ [ccs ++ [cas]], [], [], [],
                 -1, level, false, false, false⟩
          else if strict then .error .nameError
          else .ok ⟨done, dcs, cur ++ [w0 :: wrest], ccs ++ [cas], [],
                    -1, level, false, false, false⟩
        else .ok ⟨done, dcs, cur ++ [w0 :: wrest], ccs ++ [cas], [],
                  -1, level, false, false, false⟩
    else
      .ok ⟨done, dcs, cur, ccs, word ++ [c], updCase cas c, level, false, cseq, sc⟩

/-- The escape branch for a non-whitespace escaped character: the
backslash and the escaped character are copied to the word and the scan
moves on. -/
def escStep (st : TokState) (e : Char) : TokState :=
  match st with
  | ⟨done, dcs, cur, ccs, word, cas, level, bs, cseq, sc⟩ =>
    if bs then ⟨done, dcs, cur, ccs, word ++ [bslash, e], cas, level, false, e.isAlpha, true⟩
    else ⟨done, dcs, cur, ccs, word ++ [bslash, e], updCase cas e, level, bs, cseq, sc⟩

/-- The `word.append(char)` a whitespace escape performs before falling
through to the normal handling of the whitespace character. -/
def pushBslash (st : TokState) : TokState :=
  match st with
  | ⟨done, dcs, cur, ccs, word, cas, level, bs, cseq, sc⟩ =>
    ⟨done, dcs, cur, ccs, word ++ [bslash], cas, level, bs, cseq, sc⟩

/-- The scanning loop of `split_latex_to_sections`.  A backslash consumes
the next character via `next(nameiter)`; at the end of the input that call
raises `StopIteration`. -/
def tokRun (strict : Bool) : List Char → TokState → Except PyErr TokState
  | [], st => .ok st
  | c :: cs, st =>
    if c = bslash then
      match cs with
      | [] => .error .stopIteration
      | e :: cs' =>
        if isWhite e then
          match procMain strict (pushBslash st) e with
          | .ok st' => tokRun strict cs' st'
          | .error err => .error err
        else tokRun strict cs' (escStep st e)
    else
      match procMain strict st c with
      | .ok st' => tokRun strict cs st'
      | .error err => .error err

/-- The epilogue of `split_latex_to_sections`: unterminated braces raise
in strict mode (the `NameError` slip) or are auto-closed, and the final
word is flushed. -/
def tokFinish (strict : Bool) (st : TokState) :
    Except PyErr (List (List Word) × List (List Int)) :=
  match st with
  | ⟨done, dcs, cur, ccs, word, cas, level, _, _, _⟩ =>
    if level ≠ 0 ∧ strict then .error .nameError
    else
      let w := if level ≠ 0 then word ++ List.replicate level rbrace else word
      if w = [] then .ok (done ++ [cur], dcs ++ [ccs])
      else .ok (done ++ [cur ++ [w]], dcs ++ [ccs ++ [cas]])

/-- `split_latex_to_sections` from `splitnames.py`. -/
def split_latex_to_sections (s : List Char) (strict : Bool) :
    Except PyErr (List (List Word) × List (List Int)) :=
  match tokRun strict s initTok with
  | .error e => .error e
  | .ok st => tokFinish strict st

/-- The `{first, von, last, jr}` dictionary returned by `splitname` for a
non-blank name. -/
structure NameParts where
  first : List Word
  von : List Word
  last : List Word
  jr : List Word
deriving Repr, DecidableEq

/-- The `num_capitals`/`capital_position` fallback of the one-section form
(note Python truthiness: `if e` keeps `-1` entries, and `sum(cases)` also
adds the `-1` of caseless words). -/
def capitalsBranch (p0 : List Word) (cases0 : List Int) : Except PyErr (Option NameParts) :=
  let num_capitals : Int := cases0.sum
  if num_capitals > 2 then
    let cpos := (cases0.enum.filter (fun pr => decide (pr.2 ≠ 0))).map Prod.fst
    if 3 ≤ cpos.length then
      let t := cpos.getD (cpos.length - 3) 0
      let s := cpos.getD (cpos.length - 2) 0
      .ok (some { first := p0.take (t + 1), von := (p0.take s).drop (t + 1),
                  last := p0.drop s, jr := [] })
    else .error .indexError
  else
    .ok (some { first := p0.take 1, von := [], last := p0.drop 1, jr := [] })

/-- The one-section form (`First von Last`) of `splitname`.  With at least
three words Python evaluates `p0[1][1]`, which raises `IndexError` when
the second word is a single character. -/
def splitForm1 (p0 : List Word) (cases0 : List Int) : Except PyErr (Option NameParts) :=
  if p0.length = 1 then
    .ok (some { first := [], von := [], last := p0, jr := [] })
  else if p0.length = 2 then
    .ok (some { first := p0.take 1, von := [], last := p0.drop 1, jr := [] })
  else
    match p0.get? 1 with
    | none => capitalsBranch p0 cases0
    | some w1 =>
      match w1.get? 1 with
      | none => .error .indexError
      | some ch =>
        if ch = '.' then
          .ok (some { first := p0.take 2, von := [], last := p0.drop 2, jr := [] })
        else capitalsBranch p0 cases0

/-- A section used as-is when its first word is non-empty
(`if first and first[0]:`). -/
def sectionIfTruthy (sec : List Word) : List Word :=
  match sec with
  | [] => []
  | w :: _ => if w ≠ [] then sec else []

/-- The two/three-section forms (`von Last[, Jr], First`) of `splitname`. -/
def splitForm23 (sections : List (List Word)) (cases : List (List Int)) :
    Except PyErr (Option NameParts) :=
  match sections.getLast? with
  | none => .error .indexError
  | some firstSec =>
    let pfirst := sectionIfTruthy firstSec
    let pjr :=
      if sections.length = 3 then
        match sections.get? 1 with
        | some jrSec => sectionIfTruthy jrSec
        | none => []
      else []
    match sections.head? with
    | none => .error .indexError
    | some lastSec =>
      if lastSec.length = 1 then
        .ok (some { first := pfirst, von := [], last := lastSec, jr := pjr })
      else
        match cases.head? with
        | none => .error .indexError
        | some lcases =>
          if lcases.contains 0 then
            let split0 := lcases.length - lcases.reverse.indexOf 0
            let split := if split0 = lcases.length then 0 else split0
            .ok (some { first := pfirst, von := lastSec.take split,
                        last := lastSec.drop split, jr := pjr })
          else
            .ok (some { first := pfirst, von := [], last := lastSec, jr := pjr })

/-- The body of `splitname` after tokenization: trailing-section removal
(the only raise site whose `InvalidName` message formats a bound
variable), the blank-input check, and the form dispatch. -/
def splitnameCore (name : List Char) (strict : Bool)
    (sections : List (List Word)) (cases : List (List Int)) :
    Except PyErr (Option NameParts) :=
  match sections.getLast? with
  | none => .error .indexError
  | some lastSec =>
    let go : List (List Word) → List (List Int) → Except PyErr (Option NameParts) :=
      fun secs cs =>
        if secs = [] ∨ secs.all (· = []) then .ok none
        else if secs.length = 1 then
          match secs.head?, cs.head? with
          | some p0, some cases0 => splitForm1 p0 cases0
          | _, _ => .error .indexError
        else splitForm23 secs cs
    if lastSec = [] then
      if sections.length > 1 ∧ strict then
        .error (.invalidName ("Trailing comma at end of name \x7b" ++
          String.mk name ++ "\x7d."))
      else go sections.dropLast cases.dropLast
    else go sections cases

/-- `splitname` from `splitnames.py`; `.ok none` models the empty
dictionary returned for blank input. -/
def splitname (name : List Char) (strict : Bool) : Except PyErr (Option NameParts) :=
  match split_latex_to_sections name strict with
  | .error e => .error e
  | .ok (sections, cases) => splitnameCore name strict sections cases

/-- `" ".join(words)`: words joined by single spaces. -/
def sjoin : List Word → Word
  | [] => []
  | [w] => w
  | w :: ws => w ++ ' ' :: sjoin ws

/-- `name.get("first", [])` on the (possibly empty) dictionary. -/
def getFirst : Option NameParts → List Word
  | none => []
  | some p => p.first

/-- `name.get("von", [])`. -/
def getVon : Option NameParts → List Word
  | none => []
  | some p => p.von

/-- `name.get("last", [])`. -/
def getLast : Option NameParts → List Word
  | none => []
  | some p => p.last

/-- `name.get("jr", [])`. -/
def getJr : Option NameParts → List Word
  | none => []
  | some p => p.jr

/-- `format_first_name` from `authfmt.py` (identical to
`NameFormatter._format_first_name` in `bibfmt.py`): abbreviate a first
name unless it is short or starts with a protected control sequence. -/
def format_first_name (w : Word) : Word :=
  if w.length > 2 ∧ ¬ w.take 2 = [lbrace, bslash] then w.take 1 ++ ['.'] else w

/-- `format_name_dict` from `authfmt.py` (also the `if "first" in
name_dict` step of `NameFormatter._format_name`): the whole space-joined
first name is abbreviated and becomes a single-element list. -/
def format_name_dict (d : Option NameParts) : Option NameParts :=
  match d with
  | none => none
  | some p => some { p with first := [format_first_name (sjoin p.first)] }

/-- The shared tail of the renderers that track the `previous` flag
(`bibfmt.NameFormatter._join_name` and the transitional
`authfmt_t.name_dict_to_str`): each later non-empty part gets one leading
separator space when some earlier part was non-empty. -/
def combineParts (first von last jr : Word) : Word :=
  let previous := !first.isEmpty
  let von := if previous && !von.isEmpty then ' ' :: von else von
  let previous := previous || !von.isEmpty
  let last := if previous && !last.isEmpty then ' ' :: last else last
  let previous := previous || !last.isEmpty
  let jr := if previous && !jr.isEmpty then ' ' :: jr else jr
  first ++ von ++ last ++ jr

/-- `NameFormatter._match_braces` (identical to `authfmt_t.match_braces`):
the list of matched brace pairs produced by the stack scan. -/
def matchBracesAux : List Char → Nat → List Nat → List (Nat × Nat) → List (Nat × Nat)
  | [], _, _, acc => acc
  | c :: cs, i, stack, acc =>
    if c = lbrace then matchBracesAux cs (i + 1) (i :: stack) acc
    else if c = rbrace then
      match stack with
      | [] => matchBracesAux cs (i + 1) [] acc
      | j :: stack' => matchBracesAux cs (i + 1) stack' (acc ++ [(j, i)])
    else matchBracesAux cs (i + 1) stack acc

/-- `self._match_braces(name)`. -/
def match_braces (w : Word) : List (Nat × Nat) := matchBracesAux w 0 [] []

/-- The brace test of `_join_name`/`authfmt_t.name_dict_to_str`:
`matched_braces and matched_braces[-1][0] == 0 and matched_braces[-1][1] == n`
with `n = len(last) - 1`. -/
def braceCheck (w : Word) : Bool :=
  match (match_braces w).getLast? with
  | none => false
  | some pr => pr.1 == 0 && pr.2 == w.length - 1

/-- The last-name brace protection of `_join_name` and
`authfmt_t.name_dict_to_str`: a last name containing a space is wrapped
unless the brace test passes. -/
def protect_last (w : Word) : Word :=
  if w.contains ' ' then (if braceCheck w then w else lbrace :: w ++ [rbrace]) else w

/-- The von adjustment of `_join_name`: `if len(von) > 1 and
von[0].isupper(): von = "{" + von[0] + "}" + von[1:]`, the first
character individually brace-protected. -/
def von_wrap (von0 : Word) : Word :=
  match von0 with
  | c :: c2 :: rest => if c.isUpper then lbrace :: c :: rbrace :: c2 :: rest else von0
  | _ => von0

/-- `NameFormatter._join_name` from `bibfmt.py`: renders a name
dictionary, brace-protecting a capitalized von head and a spaced last
name, with the running `previous` flag inserting separator spaces. -/
def join_name (d : Option NameParts) : Word :=
  combineParts (sjoin (getFirst d)) (von_wrap (sjoin (getVon d)))
    (protect_last (sjoin (getLast d))) (sjoin (getJr d))

/-- `name_dict_to_str` from `last_name_format_transition/authfmt_t.py`:
like `_join_name` but without the von-capital brace protection. -/
def name_dict_to_str_t (d : Option NameParts) : Word :=
  combineParts (sjoin (getFirst d)) (sjoin (getVon d))
    (protect_last (sjoin (getLast d))) (sjoin (getJr d))

/-- `name_dict_to_str` from `authfmt.py`: note that this variant computes
`previous` once from `first` and never updates it. -/
def name_dict_to_str (d : Option NameParts) : Word :=
  let first := sjoin (getFirst d)
  let von := sjoin (getVon d)
  let last := sjoin (getLast d)
  let jr := sjoin (getJr d)
  let previous := !first.isEmpty
  let von := if previous && !von.isEmpty then ' ' :: von else von
  let last := if previous && !last.isEmpty then ' ' :: last else last
  let jr := if previous && !jr.isEmpty then ' ' :: jr else jr
  first ++ von ++ last ++ jr

/-- The `special_names` table of `NameFormatter`: a mapping from last-name
word tuples to registered name dictionaries. -/
abbrev SpecialTable := List (List Word × NameParts)

/-- `NameFormatter._is_special_name`: the candidate's last tuple must be a
registered key and the abbreviation of the candidate's joined first name
must equal the registered entry's joined first name (which is not
re-abbreviated). -/
def NF_is_special_name (tbl : SpecialTable) (first last : List Word) : Bool :=
  match List.lookup last tbl with
  | some e => format_first_name (sjoin first) == sjoin e.first
  | none => false

/-- The `while words:` loop of `NameFormatter._split_name`.  Python pops
words from the end of `words`; here the popped side is the head because
the caller passes `words.reverse`, so `rws.reverse` is the remaining
`words` list. -/
def snLoop (tbl : SpecialTable) (suffixSet : List (List Word)) (orig : NameParts) :
    List Word → List Word → Option NameParts → NameParts
  | [], _, _ => orig
  | lw :: rws, last, prev =>
    let last' := lw :: last
    let prev' := if NF_is_special_name tbl rws.reverse last' then List.lookup last' tbl
                 else prev
    if suffixSet.contains last' then snLoop tbl suffixSet orig rws last' prev'
    else
      match prev' with
      | some e => e
      | none => orig

/-- `NameFormatter._split_name`: split a name and re-assign words to the
last name according to the registered special names. -/
def NF_split_name (tbl : SpecialTable) (suffixSet : List (List Word))
    (name : List Char) : Except PyErr (Option NameParts) :=
  match splitname name true with
  | .error e => .error e
  | .ok none => .ok none
  | .ok (some p) =>
    if p.first.length + p.von.length ≤ 1 ∨ p.last = [] then .ok (some p)
    else
      .ok (some (snLoop tbl suffixSet p ((p.first ++ p.von ++ p.last.take 1).reverse)
        (p.last.drop 1) none))

/-- `NameFormatter._format_name`: split, abbreviate the first name, and
join. -/
def NF_format_name (tbl : SpecialTable) (suffixSet : List (List Word))
    (name : List Char) : Except PyErr Word :=
  match NF_split_name tbl suffixSet name with
  | .error e => .error e
  | .ok d => .ok (join_name (format_name_dict d))

/-- The split-then-render pipeline (`splitname`, first-name abbreviation,
`_join_name`) with no special names registered. -/
def format_pipeline (name : List Char) : Except PyErr Word :=
  NF_format_name [] [] name

deriving instance DecidableEq for Except

/-! ### Specification-side definitions

The following definitions are not translations of the source; they encode
conditions the specification states in prose, for comparison with the
source functions above. -/

/-- Spec-side brace/comma scanner: the first failure condition
(`InvalidName` situation or bare `next()` call at the end of input) met
when reading the input the way the tokenizer's escape handling does.
`l` is the brace level and `k` the number of top-level commas seen.
`none` means the input has balanced braces, at most two top-level commas
and no trailing unescaped backslash. -/
def scanErr : List Char → Nat → Nat → Option PyErr
  | [], l, _ => if l ≠ 0 then some .nameError else none
  | c :: cs, l, k =>
    if c = bslash then
      match cs with
      | [] => some .stopIteration
      | _ :: cs' => scanErr cs' l k
    else if c = lbrace then scanErr cs (l + 1) k
    else if c = rbrace then (if l = 0 then some .nameError else scanErr cs (l - 1) k)
    else if c = ',' then
      (if l = 0 then (if k < 2 then scanErr cs l (k + 1) else some .nameError)
       else scanErr cs l k)
    else scanErr cs l k

/-- Spec-side predicate: the scan meets an unmatched closing brace (a
`}` at brace level zero), braces and escapes read as the tokenizer reads
them. -/
def strayClose : List Char → Nat → Bool
  | [], _ => false
  | c :: cs, l =>
    if c = bslash then
      match cs with
      | [] => false
      | _ :: cs' => strayClose cs' l
    else if c = lbrace then strayClose cs (l + 1)
    else if c = rbrace then (if l = 0 then true else strayClose cs (l - 1))
    else strayClose cs l

/-- Spec-side predicate: the input does not end in an unescaped backslash
(the situation in which `next(nameiter)` raises `StopIteration`). -/
def noTrailingEscape : List Char → Bool
  | [] => true
  | c :: cs =>
    if c = bslash then
      match cs with
      | [] => false
      | _ :: cs' => noTrailingEscape cs'
    else noTrailingEscape cs

/-- A plain name character: no backslash, brace, comma or whitespace. -/
def plainChar (c : Char) : Bool :=
  !(c = bslash || c = lbrace || c = rbrace || c = ',' || isWhite c)

/-- A plain non-empty word of plain characters. -/
def plainWord (w : Word) : Bool := !w.isEmpty && w.all plainChar

/-- Spec-side helper for `isFullGroup`: reading the rest of the word at
brace level `lvl ≥ 1`, the level reaches zero exactly at the final
character. -/
def fullAux : List Char → Nat → Bool
  | [], _ => false
  | [c], lvl => c == rbrace && lvl == 1
  | c :: cs, lvl =>
    if c = rbrace then decide (1 < lvl) && fullAux cs (lvl - 1)
    else if c = lbrace then fullAux cs (lvl + 1)
    else fullAux cs lvl

/-- Spec-side predicate, modelled from the spec's words: the word is
"fully enclosed by one matching top-level brace pair spanning its whole
length" — it starts with an opening brace whose matching closing brace is
its final character. -/
def isFullGroup (w : Word) : Bool :=
  match w with
  | [] => false
  | c :: rest => c == lbrace && fullAux rest 1

/-- Spec-side check: no two adjacent space characters. -/
def noDouble : Word → Bool
  | a :: b :: rest => !(a == ' ' && b == ' ') && noDouble (b :: rest)
  | _ => true

/-- Spec-side check for rendered names: no double, leading or trailing
space. -/
def spacedOK (w : Word) : Bool :=
  noDouble w && w.head? != some ' ' && w.getLast? != some ' '

/-- A word that is non-empty and contains no space. -/
def tidyWord (w : Word) : Bool := !w.isEmpty && !w.contains ' '

/-- All words of all four parts are non-empty and space-free. -/
def tidyParts (p : NameParts) : Bool :=
  p.first.all tidyWord && p.von.all tidyWord && p.last.all tidyWord && p.jr.all tidyWord

/-- Spec-side lookup, modelled from the spec's words for the exact-match
rule: string equality after independently abbreviating both the
candidate's and the registered entry's first names. -/
def specLookupOK (tbl : SpecialTable) (first last : List Word) : Bool :=
  match List.lookup last tbl with
  | some e => format_first_name (sjoin first) == format_first_name (sjoin e.first)
  | none => false

/-! ### Claim theorems -/

/-- C1: the spec says `InvalidName` (unterminated brace, unmatched closing
brace, too many comma-separated sections, trailing comma) is the only
error kind that propagates out of the name-splitting core, raised only in
strict mode.  The code contradicts its own docstring (`:raises
customization.InvalidName:`): the three raise sites inside
`split_latex_to_sections` format the unbound variable `name` and so raise
`NameError`; a one-letter second word raises `IndexError` from
`p0[1][1]`; a trailing backslash raises `StopIteration`; only the
trailing-comma check of `splitname` actually raises `InvalidName`. -/
theorem C1_error_kinds :
    split_latex_to_sections ("Foo\x7d".toList) true = .error .nameError ∧
    split_latex_to_sections ("x\x7b".toList) true = .error .nameError ∧
    splitname ("A B C".toList) true = .error .indexError ∧
    splitname ("x\\".toList) true = .error .stopIteration ∧
    splitname ("a,".toList) true =
      .error (.invalidName ("Trailing comma at end of name \x7ba,\x7d.")) := by
  decide

/-- C2 counterexample: `"J. von Neumann"` is an output of the pipeline
(on input `"von Neumann, John"`, the spec's own Scenario 3), yet running
the pipeline on it yields the different string `"J. {von Neumann}"`: the
re-split assigns `von` to the last name, whose rendered form gains a
brace group.  So the pipeline is not idempotent on its own outputs. -/
theorem C2_pipeline_not_idempotent_cex :
    format_pipeline ("von Neumann, John".toList) = .ok ("J. von Neumann".toList) ∧
    format_pipeline ("J. von Neumann".toList) = .ok ("J. \x7bvon Neumann\x7d".toList) ∧
    ("J. \x7bvon Neumann\x7d".toList) ≠ ("J. von Neumann".toList) := by
  decide

/-- C3 counterexample: `"a,b,c,d"` has balanced braces yet the tokenizer
raises in strict mode (too many commas), and the unmatched closing brace
of `"Foo}"` raises `NameError` (the unbound-variable slip), not
`InvalidName`. -/
theorem C3_tokenizer_cex :
    split_latex_to_sections ("a,b,c,d".toList) true = .error .nameError ∧
    split_latex_to_sections ("Foo\x7d".toList) true = .error .nameError := by
  decide

/-- C5 counterexample: `authfmt.py`'s `name_dict_to_str` computes its
`previous` flag once from `first` and never updates it, so for a record
with empty `first` the adjacent non-empty `von` and `last` parts are
rendered with no separating space (`"vl"` instead of `"v l"`). -/
theorem C5_missing_separator_cex :
    name_dict_to_str (some ⟨[], [['v']], [['l']], []⟩) = ['v', 'l'] ∧
    ['v', 'l'] ≠ ['v', ' ', 'l'] := by
  decide

/-- C10 counterexample: the input `"\\"` (two characters, ending in a
backslash) does not raise `StopIteration` in either mode: the final
backslash is itself escaped and is consumed by the preceding escape. -/
theorem C10_trailing_backslash_cex :
    split_latex_to_sections ("\\\\".toList) true = .ok ([[[bslash, bslash]]], [[-1]]) ∧
    split_latex_to_sections ("\\\\".toList) false = .ok ([[[bslash, bslash]]], [[-1]]) := by
  decide

/-- C4 counterexample: with the entry for last name `Neumann` registered
with its original unabbreviated first name `John`, the candidate
(`first = John`, `last = Neumann`) satisfies the spec's rule (equality
after abbreviating both sides) but `_is_special_name` returns `False`,
because the code abbreviates only the candidate's side. -/
theorem C4_lookup_cex :
    NF_is_special_name
      [([("Neumann".toList)], ⟨[("John".toList)], [("von".toList)], [("Neumann".toList)], []⟩)]
      [("John".toList)] [("Neumann".toList)] = false ∧
    specLookupOK
      [([("Neumann".toList)], ⟨[("John".toList)], [("von".toList)], [("Neumann".toList)], []⟩)]
      [("John".toList)] [("Neumann".toList)] = true := by
  decide

/-- C4 amended: `_is_special_name` succeeds iff the candidate's last-name
tuple is a registered key and the abbreviated form of the candidate's
first name equals the registered entry's joined first name as stored (the
registered side is not re-abbreviated). -/
theorem C4_lookup_characterization (tbl : SpecialTable) (first last : List Word) :
    NF_is_special_name tbl first last = true ↔
      ∃ e, List.lookup last tbl = some e ∧
        format_first_name (sjoin first) = sjoin e.first := by
  unfold NF_is_special_name
  cases h : List.lookup last tbl with
  | none => simp
  | some e => simp [beq_iff_eq]

/-- C6: `abbreviate(w) = w` iff `len(w) <= 2` or `w` starts with an
opening brace followed by a backslash; otherwise the result is the first
character followed by a period; and `format_name_dict` applies the
abbreviation to the whole space-joined first name, which becomes the
single-element `first` list. -/
theorem C6_abbreviation :
    (∀ w : Word,
      format_first_name w =
        (if w.length ≤ 2 ∨ w.take 2 = [lbrace, bslash] then w else w.take 1 ++ ['.']) ∧
      (format_first_name w = w ↔ w.length ≤ 2 ∨ w.take 2 = [lbrace, bslash])) ∧
    (∀ p : NameParts,
      format_name_dict (some p) =
        some { p with first := [format_first_name (sjoin p.first)] }) := by
  refine ⟨fun w => ?_, fun p => rfl⟩
  have hchar : format_first_name w =
      (if w.length ≤ 2 ∨ w.take 2 = [lbrace, bslash] then w else w.take 1 ++ ['.']) := by
    unfold format_first_name
    by_cases h1 : w.length ≤ 2
    · have : ¬ w.length > 2 := by omega
      simp [this, h1]
    · by_cases h2 : w.take 2 = [lbrace, bslash]
      · simp [h2, h1]
      · have hgt : w.length > 2 := by omega
        simp [h1, h2, hgt]
  refine ⟨hchar, ?_⟩
  rw [hchar]
  by_cases hc : w.length ≤ 2 ∨ w.take 2 = [lbrace, bslash]
  · simp [hc]
  · simp only [if_neg hc]
    constructor
    · intro h
      exfalso
      apply hc
      left
      have hlen : w.length = (w.take 1).length + 1 := by
        conv_lhs => rw [← h]
        simp
      have : (w.take 1).length ≤ 1 := by
        simp
      omega
    · intro h
      exact absurd h hc

/-- C8: a name that tokenizes to a single section of exactly two words
`A B` splits to `first = [A]`, `last = [B]` with empty `von` and `jr`;
in particular `"Roland Kaminski"` splits that way and the full pipeline
renders it as `"R. Kaminski"`. -/
theorem C8_two_word_split :
    (∀ (name : List Char) (A B : Word) (c1 : List Int),
        split_latex_to_sections name true = .ok ([[A, B]], [c1]) →
        splitname name true = .ok (some ⟨[A], [], [B], []⟩)) ∧
    splitname ("Roland Kaminski".toList) true =
      .ok (some ⟨[("Roland".toList)], [], [("Kaminski".toList)], []⟩) ∧
    format_pipeline ("Roland Kaminski".toList) = .ok ("R. Kaminski".toList) := by
  refine ⟨?_, by decide, by decide⟩
  intro name A B c1 h
  unfold splitname
  rw [h]
  simp [splitnameCore, splitForm1]

/-- C8 witness: the universally quantified part of `C8_two_word_split`
applied to the concrete tokenization of `"Roland Kaminski"`. -/
theorem C8_witness :
    splitname ("Roland Kaminski".toList) true =
      .ok (some ⟨[("Roland".toList)], [], [("Kaminski".toList)], []⟩) := by
  exact C8_two_word_split.1 ("Roland Kaminski".toList) ("Roland".toList) ("Kaminski".toList)
    [1, 1] (by decide)

theorem noDouble_iff : ∀ w : Word,
    noDouble w = true ↔ List.Chain' (fun a b => ¬(a = ' ' ∧ b = ' ')) w
  | [] => by simp [noDouble]
  | [a] => by simp [noDouble]
  | a :: b :: rest => by
    rw [List.chain'_cons, ← noDouble_iff (b :: rest)]
    simp [noDouble]
    tauto

theorem spacedOK_iff (w : Word) :
    spacedOK w = true ↔
      List.Chain' (fun a b => ¬(a = ' ' ∧ b = ' ')) w ∧
      w.head? ≠ some ' ' ∧ w.getLast? ≠ some ' ' := by
  simp [spacedOK, noDouble_iff, bne_iff_ne, and_assoc]

theorem tidyWord_spacedOK (w : Word) (h : tidyWord w = true) :
    spacedOK w = true ∧ w ≠ [] := by
  unfold tidyWord at h
  rw [Bool.and_eq_true] at h
  obtain ⟨h1, h2⟩ := h
  have hne : w ≠ [] := by
    cases w with
    | nil => simp at h1
    | cons a l => exact List.cons_ne_nil a l
  have hnomem : ' ' ∉ w := by simpa using h2
  refine ⟨?_, hne⟩
  rw [spacedOK_iff]
  refine ⟨?_, ?_, ?_⟩
  · clear h1 h2 hne
    induction w with
    | nil => exact List.chain'_nil
    | cons a l ih =>
      rw [List.chain'_cons']
      refine ⟨fun y hy => fun hab => ?_, ih (fun hm => hnomem (List.mem_cons_of_mem a hm))⟩
      exact hnomem (by simp [hab.1])
  · intro hh
    exact hnomem (by
      cases w with
      | nil => simp at hh
      | cons a l =>
        simp at hh
        simp [hh])
  · intro hh
    have := List.getLast?_eq_getLast_of_ne_nil hne
    rw [this] at hh
    have hmem := List.getLast_mem hne
    rw [Option.some_inj] at hh
    rw [hh] at hmem
    exact hnomem hmem

theorem sjoin_ne_nil (ws : List Word) (hne : ws ≠ [])
    (h : ∀ w ∈ ws, w ≠ []) : sjoin ws ≠ [] := by
  match ws with
  | [] => exact absurd rfl hne
  | [w] => simpa [sjoin] using h w (by simp)
  | w :: w2 :: rest =>
    have : sjoin (w :: w2 :: rest) = w ++ ' ' :: sjoin (w2 :: rest) := by simp [sjoin]
    rw [this]
    exact List.append_ne_nil_of_right_ne_nil w (List.cons_ne_nil _ _)

theorem sjoin_parts_spacedOK : ∀ ps : List Word,
    (∀ w ∈ ps, w ≠ [] ∧ spacedOK w = true) → spacedOK (sjoin ps) = true
  | [] => fun _ => by decide
  | [w] => fun h => by simpa [sjoin] using (h w (by simp)).2
  | w :: w2 :: rest => fun h => by
    have hw := h w (by simp)
    have hrest : ∀ x ∈ w2 :: rest, x ≠ [] ∧ spacedOK x = true := fun x hx =>
      h x (List.mem_cons_of_mem w hx)
    have ih := sjoin_parts_spacedOK (w2 :: rest) hrest
    have hsne : sjoin (w2 :: rest) ≠ [] :=
      sjoin_ne_nil _ (List.cons_ne_nil _ _) (fun x hx => (hrest x hx).1)
    have hs : sjoin (w :: w2 :: rest) = w ++ ' ' :: sjoin (w2 :: rest) := by simp [sjoin]
    rw [spacedOK_iff] at ih ⊢
    rw [spacedOK_iff] at hw
    obtain ⟨hwC, hwH, hwL⟩ := hw.2
    obtain ⟨ihC, ihH, ihL⟩ := ih
    rw [hs]
    refine ⟨?_, ?_, ?_⟩
    · rw [List.chain'_append]
      refine ⟨hwC, ?_, ?_⟩
      · rw [List.chain'_cons']
        refine ⟨fun y hy hab => ?_, ihC⟩
        rw [Option.mem_def] at hy
        rw [hab.2] at hy
        exact ihH hy
      · intro x hx y hy hab
        rw [Option.mem_def] at hx
        rw [hab.1] at hx
        exact hwL hx
    · rw [List.head?_append_of_ne_nil w hw.1]
      exact hwH
    · rw [List.getLast?_append_of_ne_nil w (List.cons_ne_nil _ _)]
      have : (' ' :: sjoin (w2 :: rest)).getLast? = (sjoin (w2 :: rest)).getLast? := by
        cases hsj : sjoin (w2 :: rest) with
        | nil => exact absurd hsj hsne
        | cons z zs => simp [List.getLast?_cons_cons]
      rw [this]
      exact ihL

theorem combineParts_eq_sjoin_filter (f v l j : Word) :
    combineParts f v l j = sjoin (([f, v, l, j]).filter (fun w => !w.isEmpty)) := by
  cases f <;> cases v <;> cases l <;> cases j <;>
    simp [combineParts, sjoin, List.filter]

theorem von_wrap_spacedOK (v : Word) (h : spacedOK v = true) :
    spacedOK (von_wrap v) = true := by
  match v with
  | [] => exact h
  | [c] => exact h
  | c :: c2 :: rest =>
    unfold von_wrap
    by_cases hc : c.isUpper
    · simp only [hc, if_true]
      rw [spacedOK_iff] at h ⊢
      obtain ⟨hC, hH, hL⟩ := h
      have hlb : ¬ lbrace = ' ' := by decide
      have hrb : ¬ rbrace = ' ' := by decide
      refine ⟨?_, by simp [hlb], ?_⟩
      · rw [List.chain'_cons', List.chain'_cons', List.chain'_cons']
        refine ⟨fun y _ hab => hlb hab.1, fun y hy hab => ?_,
          fun y _ hab => hrb hab.1, (List.chain'_cons.mp hC).2⟩
        rw [Option.mem_def, List.head?_cons, Option.some_inj] at hy
        rw [← hy] at hab
        exact hrb hab.2
      · rw [List.getLast?_cons_cons, List.getLast?_cons_cons, List.getLast?_cons_cons]
        rw [List.getLast?_cons_cons] at hL
        exact hL
    · simpa [hc] using (spacedOK_iff _).mpr ((spacedOK_iff _).mp h)

theorem protect_last_spacedOK (w : Word) (h : spacedOK w = true) :
    spacedOK (protect_last w) = true := by
  unfold protect_last
  by_cases h1 : w.contains ' '
  · by_cases h2 : braceCheck w
    · simp [h1, h2, h]
    · have h2' : braceCheck w = false := by simpa using h2
      simp only [h1, h2', Bool.false_eq_true, if_false, if_true]
      rw [spacedOK_iff] at h ⊢
      obtain ⟨hC, hH, hL⟩ := h
      have hlb : ¬ lbrace = ' ' := by decide
      have hrb : ¬ rbrace = ' ' := by decide
      refine ⟨?_, ?_, ?_⟩
      · rw [List.chain'_append]
        refine ⟨?_, List.chain'_singleton _, ?_⟩
        · rw [List.chain'_cons']
          exact ⟨fun y _ hab => hlb hab.1, hC⟩
        · intro x hx y hy hab
          rw [Option.mem_def, List.head?_cons, Option.some_inj] at hy
          rw [← hy] at hab
          exact hrb hab.2
      · rw [List.head?_append_of_ne_nil _ (List.cons_ne_nil _ _), List.head?_cons]
        simp [hlb]
      · rw [List.getLast?_concat]
        simp [hrb]
  · have h1' : ¬ ' ' ∈ w := by simpa using h1
    simp [h1', h]

/-- C5: the renderers that track the running `previous` flag
(`_join_name` and `authfmt_t.name_dict_to_str`) insert exactly one
separating space between adjacent non-empty parts (the output is the
space-join of the non-empty adjusted parts, for all part strings), and
for every NameParts whose words are non-empty and space-free the rendered
string has no double, leading or trailing space.  (`authfmt.py`'s
renderer violates the claim; see the counterexample.) -/
theorem C5_renderer_spacing :
    (∀ f v l j : Word,
        combineParts f v l j = sjoin (([f, v, l, j]).filter (fun w => !w.isEmpty))) ∧
    (∀ p : NameParts, tidyParts p = true →
        spacedOK (join_name (some p)) = true ∧
        spacedOK (name_dict_to_str_t (some p)) = true) := by
  refine ⟨combineParts_eq_sjoin_filter, fun p hp => ?_⟩
  unfold tidyParts at hp
  simp only [Bool.and_eq_true, List.all_eq_true] at hp
  obtain ⟨⟨⟨hf, hv⟩, hl⟩, hj⟩ := hp
  have pf : ∀ (ws : List Word), (∀ w ∈ ws, tidyWord w = true) →
      spacedOK (sjoin ws) = true := fun ws h =>
    sjoin_parts_spacedOK ws (fun w hw =>
      ⟨(tidyWord_spacedOK w (h w hw)).2, (tidyWord_spacedOK w (h w hw)).1⟩)
  have sf : spacedOK (sjoin p.first) = true := pf p.first hf
  have sv : spacedOK (von_wrap (sjoin p.von)) = true :=
    von_wrap_spacedOK _ (pf p.von hv)
  have sv0 : spacedOK (sjoin p.von) = true := pf p.von hv
  have sl : spacedOK (protect_last (sjoin p.last)) = true :=
    protect_last_spacedOK _ (pf p.last hl)
  have sj2 : spacedOK (sjoin p.jr) = true := pf p.jr hj
  constructor
  · show spacedOK (combineParts (sjoin (getFirst (some p))) (von_wrap (sjoin (getVon (some p))))
      (protect_last (sjoin (getLast (some p)))) (sjoin (getJr (some p)))) = true
    simp only [getFirst, getVon, getLast, getJr]
    rw [combineParts_eq_sjoin_filter]
    apply sjoin_parts_spacedOK
    intro w hw
    rw [List.mem_filter] at hw
    obtain ⟨hmem, hne⟩ := hw
    have hwne : w ≠ [] := by simpa using hne
    refine ⟨hwne, ?_⟩
    simp only [List.mem_cons, List.not_mem_nil, or_false] at hmem
    rcases hmem with h | h | h | h <;> rw [h] <;> assumption
  · show spacedOK (combineParts (sjoin (getFirst (some p))) (sjoin (getVon (some p)))
      (protect_last (sjoin (getLast (some p)))) (sjoin (getJr (some p)))) = true
    simp only [getFirst, getVon, getLast, getJr]
    rw [combineParts_eq_sjoin_filter]
    apply sjoin_parts_spacedOK
    intro w hw
    rw [List.mem_filter] at hw
    obtain ⟨hmem, hne⟩ := hw
    have hwne : w ≠ [] := by simpa using hne
    refine ⟨hwne, ?_⟩
    simp only [List.mem_cons, List.not_mem_nil, or_false] at hmem
    rcases hmem with h | h | h | h <;> rw [h] <;> assumption

/-- C5 witness: the spacing property of `C5_renderer_spacing` at a
concrete record with empty first name. -/
theorem C5_witness :
    spacedOK (join_name (some ⟨[], [['v']], [['l']], []⟩)) = true ∧
    spacedOK (name_dict_to_str_t (some ⟨[], [['v']], [['l']], []⟩)) = true :=
  C5_renderer_spacing.2 ⟨[], [['v']], [['l']], []⟩ (by decide)

theorem fullAux_matchBraces : ∀ (cs : List Char) (lvl i : Nat) (stack : List Nat)
    (acc : List (Nat × Nat)),
    fullAux cs lvl = true → stack.length = lvl → stack.getLast? = some 0 → 1 ≤ i →
    (matchBracesAux cs i stack acc).getLast? = some (0, i + cs.length - 1)
  | [], lvl, i, stack, acc => by simp [fullAux]
  | [c], lvl, i, stack, acc => by
    intro hf hlen hlast hi
    simp only [fullAux, Bool.and_eq_true, beq_iff_eq] at hf
    obtain ⟨hc, hlvl⟩ := hf
    subst hc
    have hstack : stack = [0] := by
      cases stack with
      | nil => simp at hlast
      | cons j stack' =>
        cases stack' with
        | nil => simp at hlast; simp [hlast]
        | cons j2 s2 => simp [hlvl] at hlen
    subst hstack
    have hne : ¬ rbrace = lbrace := by decide
    simp [matchBracesAux, hne, List.getLast?_concat]
  | c :: c2 :: cs, lvl, i, stack, acc => by
    intro hf hlen hlast hi
    have hsne : stack ≠ [] := by
      intro h; rw [h] at hlast; simp at hlast
    by_cases hc1 : c = rbrace
    · subst hc1
      rw [show fullAux (rbrace :: c2 :: cs) lvl =
            (decide (1 < lvl) && fullAux (c2 :: cs) (lvl - 1)) from by simp [fullAux]] at hf
      rw [Bool.and_eq_true, decide_eq_true_iff] at hf
      obtain ⟨hlt, hf⟩ := hf
      obtain ⟨j, stack', rfl⟩ : ∃ j stack', stack = j :: stack' := by
        cases stack with
        | nil => exact absurd rfl hsne
        | cons a b => exact ⟨a, b, rfl⟩
      have hs'ne : stack' ≠ [] := by
        intro h
        rw [h] at hlen
        simp at hlen
        omega
      have hne : ¬ rbrace = lbrace := by decide
      rw [show matchBracesAux (rbrace :: c2 :: cs) i (j :: stack') acc =
            matchBracesAux (c2 :: cs) (i + 1) stack' (acc ++ [(j, i)]) from by
        simp [matchBracesAux, hne]]
      rw [fullAux_matchBraces (c2 :: cs) (lvl - 1) (i + 1) stack' (acc ++ [(j, i)]) hf
        (by simp at hlen; omega)
        (by
          cases stack' with
          | nil => exact absurd rfl hs'ne
          | cons a b => rw [← hlast]; simp [List.getLast?_cons_cons])
        (by omega)]
      congr 2
      simp
      omega
    · by_cases hc2 : c = lbrace
      · subst hc2
        rw [show fullAux (lbrace :: c2 :: cs) lvl = fullAux (c2 :: cs) (lvl + 1) from by
          have : ¬ lbrace = rbrace := by decide
          simp [fullAux, this]] at hf
        rw [show matchBracesAux (lbrace :: c2 :: cs) i stack acc =
              matchBracesAux (c2 :: cs) (i + 1) (i :: stack) acc from by
          simp [matchBracesAux]]
        rw [fullAux_matchBraces (c2 :: cs) (lvl + 1) (i + 1) (i :: stack) acc hf
          (by simp [hlen])
          (by
            cases stack with
            | nil => exact absurd rfl hsne
            | cons a b => rw [← hlast]; simp [List.getLast?_cons_cons])
          (by omega)]
        congr 2
        simp
        omega
      · rw [show fullAux (c :: c2 :: cs) lvl = fullAux (c2 :: cs) lvl from by
          simp [fullAux, hc1, hc2]] at hf
        rw [show matchBracesAux (c :: c2 :: cs) i stack acc =
              matchBracesAux (c2 :: cs) (i + 1) stack acc from by
          simp [matchBracesAux, hc1, hc2]]
        rw [fullAux_matchBraces (c2 :: cs) lvl (i + 1) stack acc hf hlen hlast (by omega)]
        congr 2
        simp
        omega

theorem matchBraces_no_zero : ∀ (cs : List Char) (i : Nat) (stack : List Nat)
    (acc : List (Nat × Nat)),
    (∀ j ∈ stack, 1 ≤ j) → 1 ≤ i →
    (matchBracesAux cs i stack acc).getLast? = acc.getLast? ∨
    (∃ pr, (matchBracesAux cs i stack acc).getLast? = some pr ∧ 1 ≤ pr.1)
  | [], i, stack, acc => fun _ _ => Or.inl rfl
  | c :: cs, i, stack, acc => by
    intro hstack hi
    by_cases hc2 : c = lbrace
    · subst hc2
      rw [show matchBracesAux (lbrace :: cs) i stack acc =
            matchBracesAux cs (i + 1) (i :: stack) acc from by simp [matchBracesAux]]
      exact matchBraces_no_zero cs (i + 1) (i :: stack) acc
        (by
          intro j hj
          rcases List.mem_cons.mp hj with h | h
          · omega
          · exact hstack j h)
        (by omega)
    · by_cases hc1 : c = rbrace
      · subst hc1
        cases stack with
        | nil =>
          rw [show matchBracesAux (rbrace :: cs) i [] acc =
                matchBracesAux cs (i + 1) [] acc from by
            simp [matchBracesAux, hc2]]
          exact matchBraces_no_zero cs (i + 1) [] acc (by simp) (by omega)
        | cons j stack' =>
          rw [show matchBracesAux (rbrace :: cs) i (j :: stack') acc =
                matchBracesAux cs (i + 1) stack' (acc ++ [(j, i)]) from by
            simp [matchBracesAux, hc2]]
          rcases matchBraces_no_zero cs (i + 1) stack' (acc ++ [(j, i)])
            (fun x hx => hstack x (List.mem_cons_of_mem j hx)) (by omega) with h | h
          · right
            refine ⟨(j, i), ?_, hstack j (by simp)⟩
            rw [h, List.getLast?_concat]
          · exact Or.inr h
      · rw [show matchBracesAux (c :: cs) i stack acc =
              matchBracesAux cs (i + 1) stack acc from by
          simp [matchBracesAux, hc1, hc2]]
        exact matchBraces_no_zero cs (i + 1) stack acc hstack (by omega)

theorem matchBraces_not_full : ∀ (cs : List Char) (lvl i : Nat) (stack : List Nat)
    (acc : List (Nat × Nat)),
    fullAux cs lvl = false → stack.length = lvl → stack.getLast? = some 0 →
    (∀ j ∈ stack.dropLast, 1 ≤ j) → 1 ≤ i →
    (matchBracesAux cs i stack acc).getLast? = acc.getLast? ∨
    (∃ pr, (matchBracesAux cs i stack acc).getLast? = some pr ∧ 1 ≤ pr.1) ∨
    (∃ p, (matchBracesAux cs i stack acc).getLast? = some (0, p) ∧ p + 2 ≤ i + cs.length)
  | [], lvl, i, stack, acc => fun _ _ _ _ _ => Or.inl rfl
  | [c], lvl, i, stack, acc => by
    intro hf hlen hlast hdrop hi
    have hsne : stack ≠ [] := by
      intro h; rw [h] at hlast; simp at hlast
    by_cases hc2 : c = lbrace
    · subst hc2
      rw [show matchBracesAux [lbrace] i stack acc =
            matchBracesAux [] (i + 1) (i :: stack) acc from by simp [matchBracesAux]]
      exact Or.inl rfl
    · by_cases hc1 : c = rbrace
      · subst hc1
        have hlvl : lvl ≠ 1 := by
          intro h
          simp [fullAux, h] at hf
        obtain ⟨j, stack', rfl⟩ : ∃ j stack', stack = j :: stack' := by
          cases stack with
          | nil => exact absurd rfl hsne
          | cons a b => exact ⟨a, b, rfl⟩
        have hs'ne : stack' ≠ [] := by
          intro h
          rw [h] at hlen
          simp at hlen
          omega
        obtain ⟨j2, s2, rfl⟩ : ∃ j2 s2, stack' = j2 :: s2 := by
          cases stack' with
          | nil => exact absurd rfl hs'ne
          | cons a b => exact ⟨a, b, rfl⟩
        have hj : 1 ≤ j := by
          apply hdrop
          rw [List.dropLast_cons₂]
          exact List.mem_cons_self j _
        rw [show matchBracesAux [rbrace] i (j :: j2 :: s2) acc =
              acc ++ [(j, i)] from by simp [matchBracesAux, hc2]]
        right; left
        exact ⟨(j, i), List.getLast?_concat _, hj⟩
      · rw [show matchBracesAux [c] i stack acc = acc from by
          simp [matchBracesAux, hc1, hc2]]
        exact Or.inl rfl
  | c :: c2 :: cs, lvl, i, stack, acc => by
    intro hf hlen hlast hdrop hi
    have hsne : stack ≠ [] := by
      intro h; rw [h] at hlast; simp at hlast
    by_cases hc1 : c = rbrace
    · subst hc1
      obtain ⟨j, stack', rfl⟩ : ∃ j stack', stack = j :: stack' := by
        cases stack with
        | nil => exact absurd rfl hsne
        | cons a b => exact ⟨a, b, rfl⟩
      have hne : ¬ rbrace = lbrace := by decide
      rw [show matchBracesAux (rbrace :: c2 :: cs) i (j :: stack') acc =
            matchBracesAux (c2 :: cs) (i + 1) stack' (acc ++ [(j, i)]) from by
        simp [matchBracesAux, hne]]
      by_cases hlvl : lvl = 1
      · subst hlvl
        have hstack : stack' = [] := by
          cases stack' with
          | nil => rfl
          | cons a b => simp at hlen
        subst hstack
        have hj : j = 0 := by
          simp at hlast
          exact hlast
        subst hj
        rcases matchBraces_no_zero (c2 :: cs) (i + 1) [] (acc ++ [(0, i)])
          (by simp) (by omega) with h | h
        · right; right
          refine ⟨i, ?_, ?_⟩
          · rw [h, List.getLast?_concat]
          · simp
        · exact Or.inr (Or.inl h)
      · have hlt : 1 < lvl := by
          cases stack' with
          | nil => simp at hlen; omega
          | cons a b => simp at hlen; omega
        have hf' : fullAux (c2 :: cs) (lvl - 1) = false := by
          rw [show fullAux (rbrace :: c2 :: cs) lvl =
                (decide (1 < lvl) && fullAux (c2 :: cs) (lvl - 1)) from by simp [fullAux]] at hf
          simpa [hlt] using hf
        obtain ⟨j2, s2, rfl⟩ : ∃ j2 s2, stack' = j2 :: s2 := by
          cases stack' with
          | nil => simp at hlen; omega
          | cons a b => exact ⟨a, b, rfl⟩
        have hj : 1 ≤ j := by
          apply hdrop
          rw [List.dropLast_cons₂]
          exact List.mem_cons_self j _
        rcases matchBraces_not_full (c2 :: cs) (lvl - 1) (i + 1) (j2 :: s2) (acc ++ [(j, i)])
          hf' (by simp at hlen ⊢; omega)
          (by rw [← hlast]; simp [List.getLast?_cons_cons])
          (by
            intro x hx
            apply hdrop
            rw [List.dropLast_cons₂]
            exact List.mem_cons_of_mem j hx)
          (by omega) with h | h | h
        · right; left
          refine ⟨(j, i), ?_, hj⟩
          rw [h, List.getLast?_concat]
        · exact Or.inr (Or.inl h)
        · right; right
          obtain ⟨p, hp, hb⟩ := h
          refine ⟨p, hp, ?_⟩
          simp at hb ⊢
          omega
    · by_cases hc2 : c = lbrace
      · subst hc2
        have hf' : fullAux (c2 :: cs) (lvl + 1) = false := by
          rw [show fullAux (lbrace :: c2 :: cs) lvl = fullAux (c2 :: cs) (lvl + 1) from by
            have : ¬ lbrace = rbrace := by decide
            simp [fullAux, this]] at hf
          exact hf
        rw [show matchBracesAux (lbrace :: c2 :: cs) i stack acc =
              matchBracesAux (c2 :: cs) (i + 1) (i :: stack) acc from by
          simp [matchBracesAux]]
        obtain ⟨j, stack', rfl⟩ : ∃ j stack', stack = j :: stack' := by
          cases stack with
          | nil => exact absurd rfl hsne
          | cons a b => exact ⟨a, b, rfl⟩
        rcases matchBraces_not_full (c2 :: cs) (lvl + 1) (i + 1) (i :: j :: stack') acc
          hf' (by simp at hlen ⊢; omega)
          (by rw [← hlast]; simp [List.getLast?_cons_cons])
          (by
            intro x hx
            rw [List.dropLast_cons₂] at hx
            rcases List.mem_cons.mp hx with h | h
            · omega
            · exact hdrop x h)
          (by omega) with h | h | h
        · exact Or.inl h
        · exact Or.inr (Or.inl h)
        · right; right
          obtain ⟨p, hp, hb⟩ := h
          refine ⟨p, hp, ?_⟩
          simp at hb ⊢
          omega
      · have hf' : fullAux (c2 :: cs) lvl = false := by
          rw [show fullAux (c :: c2 :: cs) lvl = fullAux (c2 :: cs) lvl from by
            simp [fullAux, hc1, hc2]] at hf
          exact hf
        rw [show matchBracesAux (c :: c2 :: cs) i stack acc =
              matchBracesAux (c2 :: cs) (i + 1) stack acc from by
          simp [matchBracesAux, hc1, hc2]]
        rcases matchBraces_not_full (c2 :: cs) lvl (i + 1) stack acc
          hf' hlen hlast hdrop (by omega) with h | h | h
        · exact Or.inl h
        · exact Or.inr (Or.inl h)
        · right; right
          obtain ⟨p, hp, hb⟩ := h
          refine ⟨p, hp, ?_⟩
          simp at hb ⊢
          omega

theorem braceCheck_eq_isFullGroup (w : Word) : braceCheck w = isFullGroup w := by
  cases w with
  | nil => decide
  | cons c rest =>
    by_cases hc : c = lbrace
    · subst hc
      have hmb : match_braces (lbrace :: rest) = matchBracesAux rest 1 [0] [] := by
        simp [match_braces, matchBracesAux]
      have hfg : isFullGroup (lbrace :: rest) = fullAux rest 1 := by
        simp [isFullGroup]
      rw [hfg]
      cases hf : fullAux rest 1 with
      | true =>
        have hml := fullAux_matchBraces rest 1 1 [0] [] hf (by simp) (by simp) (by omega)
        unfold braceCheck
        rw [hmb, hml]
        have h1 : 1 + rest.length - 1 = rest.length := by omega
        have h2 : (lbrace :: rest).length - 1 = rest.length := by simp
        simp [h1, h2]
      | false =>
        unfold braceCheck
        rw [hmb]
        rcases matchBraces_not_full rest 1 1 [0] [] hf (by simp) (by simp) (by simp) (by omega)
          with h | h | h
        · rw [h]
          simp
        · obtain ⟨pr, hpr, h1⟩ := h
          rw [hpr]
          have : (pr.1 == 0) = false := by
            simp
            omega
          simp [this]
        · obtain ⟨p, hp, hb⟩ := h
          rw [hp]
          simp at hb ⊢
          omega
    · have hfg : isFullGroup (c :: rest) = false := by
        simp [isFullGroup, hc]
      rw [hfg]
      unfold braceCheck
      have hmb : match_braces (c :: rest) = matchBracesAux rest 1 [] [] := by
        by_cases hcr : c = rbrace
        · subst hcr
          simp [match_braces, matchBracesAux, hc]
        · simp [match_braces, matchBracesAux, hc, hcr]
      rw [hmb]
      rcases matchBraces_no_zero rest 1 [] [] (by simp) (by omega) with h | h
      · rw [h]
        simp
      · obtain ⟨pr, hpr, h1⟩ := h
        rw [hpr]
        have : (pr.1 == 0) = false := by
          simp
          omega
        simp [this]

/-- C7: the renderer's last-name brace protection wraps a spaced last
name in a fresh brace pair exactly when it is not already a single
top-level brace group spanning its whole length (the code's
matched-braces test is equivalent to that spec condition for every
word), and leaves a full brace group unchanged. -/
theorem C7_last_brace_protection :
    (∀ w : Word, braceCheck w = isFullGroup w) ∧
    (∀ p : NameParts,
      ((sjoin p.last).contains ' ' = true → isFullGroup (sjoin p.last) = false →
        protect_last (sjoin p.last) = lbrace :: sjoin p.last ++ [rbrace]) ∧
      (isFullGroup (sjoin p.last) = true → protect_last (sjoin p.last) = sjoin p.last)) := by
  refine ⟨braceCheck_eq_isFullGroup, fun p => ⟨?_, ?_⟩⟩
  · intro hs hf
    unfold protect_last
    rw [braceCheck_eq_isFullGroup, hs, hf]
    simp
  · intro hf
    unfold protect_last
    rw [braceCheck_eq_isFullGroup, hf]
    by_cases hs : (sjoin p.last).contains ' ' = true
    · simp [hs]
    · simp at hs
      simp [hs]

/-- C7 witness: `C7_last_brace_protection` applied to the concrete last
names `von Neumann` (wrapped) and `{von Neumann}` (left unchanged). -/
theorem C7_witness :
    protect_last (sjoin (NameParts.last ⟨[], [], [("von".toList), ("Neumann".toList)], []⟩)) =
      lbrace :: sjoin (NameParts.last ⟨[], [], [("von".toList), ("Neumann".toList)], []⟩) ++ [rbrace] ∧
    protect_last (sjoin (NameParts.last ⟨[], [], [("\x7bvon Neumann\x7d".toList)], []⟩)) =
      sjoin (NameParts.last ⟨[], [], [("\x7bvon Neumann\x7d".toList)], []⟩) :=
  ⟨(C7_last_brace_protection.2 ⟨[], [], [("von".toList), ("Neumann".toList)], []⟩).1
      (by decide) (by decide),
   (C7_last_brace_protection.2 ⟨[], [], [("\x7bvon Neumann\x7d".toList)], []⟩).2 (by decide)⟩

theorem plainChar_spec (c : Char) (h : plainChar c = true) :
    c ≠ bslash ∧ c ≠ lbrace ∧ c ≠ rbrace ∧ c ≠ ',' ∧ isWhite c = false := by
  simp [plainChar] at h
  tauto

theorem tokRun_nil (strict : Bool) (st : TokState) : tokRun strict [] st = .ok st := rfl

theorem tokRun_cons_not_bslash (strict : Bool) (c : Char) (cs : List Char) (st : TokState)
    (h : c ≠ bslash) :
    tokRun strict (c :: cs) st =
      (match procMain strict st c with
       | .ok st' => tokRun strict cs st'
       | .error err => .error err) := by
  conv_lhs => rw [tokRun.eq_def]
  simp only [if_neg h]

theorem tokRun_bslash_nil (strict : Bool) (st : TokState) :
    tokRun strict [bslash] st = .error .stopIteration := by
  conv_lhs => rw [tokRun.eq_def]
  simp

theorem tokRun_bslash_white (strict : Bool) (e : Char) (cs : List Char) (st : TokState)
    (h : isWhite e = true) :
    tokRun strict (bslash :: e :: cs) st =
      (match procMain strict (pushBslash st) e with
       | .ok st' => tokRun strict cs st'
       | .error err => .error err) := by
  conv_lhs => rw [tokRun.eq_def]
  simp only [if_pos rfl, h, if_true]

theorem tokRun_bslash_esc (strict : Bool) (e : Char) (cs : List Char) (st : TokState)
    (h : isWhite e = false) :
    tokRun strict (bslash :: e :: cs) st = tokRun strict cs (escStep st e) := by
  conv_lhs => rw [tokRun.eq_def]
  simp [h]

theorem procMain_plain (strict : Bool) (st : TokState) (c : Char)
    (h : plainChar c = true) (hlevel : st.level = 0) :
    procMain strict st c = .ok ⟨st.done, st.doneCases, st.cur, st.curCases,
      st.word ++ [c], updCase st.caseSig c, 0, false, st.controlseq, st.specialchar⟩ := by
  obtain ⟨h1, h2, h3, h4, h5⟩ := plainChar_spec c h
  obtain ⟨done, dcs, cur, ccs, word, cas, level, bs, cseq, sc⟩ := st
  simp at hlevel
  subst hlevel
  simp [procMain, h2, h3, h4, h5]

theorem tokRun_plain (strict : Bool) : ∀ (w rest : List Char) (st : TokState),
    w.all plainChar = true → st.level = 0 → st.bracestart = false →
    tokRun strict (w ++ rest) st =
      tokRun strict rest ⟨st.done, st.doneCases, st.cur, st.curCases,
        st.word ++ w, List.foldl updCase st.caseSig w, 0, false,
        st.controlseq, st.specialchar⟩
  | [], rest, st => by
    intro _ hlevel hbs
    obtain ⟨done, dcs, cur, ccs, word, cas, level, bs, cseq, sc⟩ := st
    simp at hlevel hbs
    subst hlevel
    subst hbs
    simp
  | c :: w', rest, st => by
    intro hall hlevel hbs
    rw [List.all_cons, Bool.and_eq_true] at hall
    obtain ⟨hc, hall'⟩ := hall
    have hcb : c ≠ bslash := (plainChar_spec c hc).1
    rw [List.cons_append]
    rw [tokRun_cons_not_bslash strict c (w' ++ rest) st hcb,
      procMain_plain strict st c hc hlevel]
    show tokRun strict (w' ++ rest) _ = _
    rw [tokRun_plain strict w' rest ⟨st.done, st.doneCases, st.cur, st.curCases,
      st.word ++ [c], updCase st.caseSig c, 0, false, st.controlseq, st.specialchar⟩
      hall' rfl rfl]
    simp

theorem tokRun_plain_all (strict : Bool) (w : List Char) (st : TokState)
    (hall : w.all plainChar = true) (hlevel : st.level = 0) (hbs : st.bracestart = false) :
    tokRun strict w st = .ok ⟨st.done, st.doneCases, st.cur, st.curCases,
      st.word ++ w, List.foldl updCase st.caseSig w, 0, false,
      st.controlseq, st.specialchar⟩ := by
  have h := tokRun_plain strict w [] st hall hlevel hbs
  rw [List.append_nil] at h
  rw [h, tokRun_nil]

theorem plainWord_spec (w : Word) (h : plainWord w = true) :
    w ≠ [] ∧ w.all plainChar = true := by
  unfold plainWord at h
  rw [Bool.and_eq_true] at h
  refine ⟨?_, h.2⟩
  cases w with
  | nil => simp at h
  | cons a l => exact List.cons_ne_nil a l

theorem split_two_plain_words (strict : Bool) (F L : Word)
    (hF : plainWord F = true) (hL : plainWord L = true) :
    split_latex_to_sections (F ++ ' ' :: L) strict =
      .ok ([[F, L]], [[List.foldl updCase (-1) F, List.foldl updCase (-1) L]]) := by
  obtain ⟨hFne, hFall⟩ := plainWord_spec F hF
  obtain ⟨hLne, hLall⟩ := plainWord_spec L hL
  unfold split_latex_to_sections
  rw [tokRun_plain strict F (' ' :: L) initTok hFall rfl rfl]
  have hsp : (' ' : Char) ≠ bslash := by decide
  rw [tokRun_cons_not_bslash strict ' ' L _ hsp]
  obtain ⟨f0, F', rfl⟩ : ∃ f0 F', F = f0 :: F' := by
    cases F with
    | nil => exact absurd rfl hFne
    | cons a l => exact ⟨a, l, rfl⟩
  rw [show procMain strict ⟨initTok.done, initTok.doneCases, initTok.cur, initTok.curCases,
        initTok.word ++ (f0 :: F'), List.foldl updCase initTok.caseSig (f0 :: F'), 0, false,
        initTok.controlseq, initTok.specialchar⟩ ' ' =
      .ok ⟨[], [], [f0 :: F'], [List.foldl updCase (-1) (f0 :: F')], [],
        -1, 0, false, false, false⟩ from by
    have h1 : (' ' : Char) ≠ lbrace := by decide
    have h2 : (' ' : Char) ≠ rbrace := by decide
    simp [procMain, initTok, isWhite, whitespaceChars, h1, h2]]
  show (match tokRun strict L (⟨[], [], [f0 :: F'], [List.foldl updCase (-1) (f0 :: F')], [],
      -1, 0, false, false, false⟩ : TokState) with
    | Except.error e => Except.error e
    | Except.ok st => tokFinish strict st) = _
  rw [tokRun_plain_all strict L ⟨[], [], [f0 :: F'], [List.foldl updCase (-1) (f0 :: F')], [],
    -1, 0, false, false, false⟩ hLall rfl rfl]
  show tokFinish strict _ = _
  obtain ⟨l0, L', rfl⟩ : ∃ l0 L', L = l0 :: L' := by
    cases L with
    | nil => exact absurd rfl hLne
    | cons a l => exact ⟨a, l, rfl⟩
  simp [tokFinish]

theorem splitname_two_plain_words (F L : Word)
    (hF : plainWord F = true) (hL : plainWord L = true) :
    splitname (F ++ ' ' :: L) true = .ok (some ⟨[F], [], [L], []⟩) := by
  unfold splitname
  rw [split_two_plain_words true F L hF hL]
  simp [splitnameCore, splitForm1]

theorem plainChar_not_space (c : Char) (h : plainChar c = true) : c ≠ ' ' := by
  intro hc
  subst hc
  simp [plainChar, isWhite, whitespaceChars] at h

theorem plain_not_contains_space (w : Word) (h : plainWord w = true) :
    w.contains ' ' = false := by
  obtain ⟨-, hall⟩ := plainWord_spec w h
  rw [List.all_eq_true] at hall
  rw [← Bool.not_eq_true]
  intro hc
  rw [List.contains_iff_exists_mem_beq] at hc
  obtain ⟨a, ha, hab⟩ := hc
  rw [beq_iff_eq] at hab
  exact plainChar_not_space a (hall a ha) hab.symm

theorem ffn_plain (F : Word) (h : plainWord F = true) :
    plainWord (format_first_name F) = true := by
  obtain ⟨hne, hall⟩ := plainWord_spec F h
  unfold format_first_name
  split_ifs with hc
  · obtain ⟨f0, F', rfl⟩ : ∃ f0 F', F = f0 :: F' := by
      cases F with
      | nil => exact absurd rfl hne
      | cons a l => exact ⟨a, l, rfl⟩
    rw [List.all_eq_true] at hall
    have h0 : plainChar f0 = true := hall f0 (by simp)
    have hdot : plainChar '.' = true := by decide
    simp [plainWord, List.take, plainChar] at h0 hdot ⊢
    tauto
  · exact h

theorem ffn_idem (F : Word) (_h : plainWord F = true) :
    format_first_name (format_first_name F) = format_first_name F := by
  by_cases hc : F.length > 2 ∧ ¬ F.take 2 = [lbrace, bslash]
  · have h1 : format_first_name F = F.take 1 ++ ['.'] := by
      unfold format_first_name
      rw [if_pos hc]
    rw [h1]
    have hlen : (F.take 1 ++ ['.']).length = 2 := by
      rw [List.length_append, List.length_take]
      simp
      omega
    unfold format_first_name
    rw [if_neg]
    intro hcc
    rw [hlen] at hcc
    omega
  · have h1 : format_first_name F = F := by
      unfold format_first_name
      rw [if_neg hc]
    rw [h1, h1]

theorem ffn_ne_nil (F : Word) (hne : F ≠ []) : format_first_name F ≠ [] := by
  unfold format_first_name
  split_ifs with hc
  · exact List.append_ne_nil_of_right_ne_nil _ (List.cons_ne_nil _ _)
  · exact hne

theorem pipeline_two_plain_words (F L : Word)
    (hF : plainWord F = true) (hL : plainWord L = true) :
    format_pipeline (F ++ ' ' :: L) = .ok (format_first_name F ++ ' ' :: L) := by
  obtain ⟨hFne, -⟩ := plainWord_spec F hF
  obtain ⟨hLne, -⟩ := plainWord_spec L hL
  unfold format_pipeline NF_format_name NF_split_name
  rw [splitname_two_plain_words F L hF hL]
  show (Except.ok (join_name (format_name_dict (some ⟨[F], [], [L], []⟩))) :
    Except PyErr Word) = _
  unfold format_name_dict
  show (Except.ok (join_name (some ⟨[format_first_name (sjoin [F])], [], [L], []⟩)) :
    Except PyErr Word) = _
  unfold join_name getFirst getVon getLast getJr
  show Except.ok (combineParts (sjoin [format_first_name F]) (von_wrap (sjoin []))
    (protect_last (sjoin [L])) (sjoin [])) = _
  rw [show sjoin [format_first_name F] = format_first_name F from rfl,
    show sjoin [L] = L from rfl,
    show sjoin ([] : List Word) = [] from rfl,
    show von_wrap [] = [] from rfl]
  rw [show protect_last L = L from by
    unfold protect_last
    rw [plain_not_contains_space L hL]
    simp]
  unfold combineParts
  have h1 : (format_first_name F).isEmpty = false := by
    rw [← Bool.not_eq_true, List.isEmpty_iff]
    exact ffn_ne_nil F hFne
  have h2 : (L : Word).isEmpty = false := by
    rw [← Bool.not_eq_true, List.isEmpty_iff]
    exact hLne
  simp [h1, h2]

/-- C2 amended: on names made of two plain words the pipeline is
idempotent: the output is the abbreviated first word, a space and the
last word, and the pipeline maps that output to itself. -/
theorem C2_two_plain_words_idempotent (F L : Word)
    (hF : plainWord F = true) (hL : plainWord L = true) :
    format_pipeline (F ++ ' ' :: L) = .ok (format_first_name F ++ ' ' :: L) ∧
    format_pipeline (format_first_name F ++ ' ' :: L) =
      .ok (format_first_name F ++ ' ' :: L) := by
  refine ⟨pipeline_two_plain_words F L hF hL, ?_⟩
  have h2 := pipeline_two_plain_words (format_first_name F) L (ffn_plain F hF) hL
  rw [ffn_idem F hF] at h2
  exact h2

/-- C2 witness: the idempotence theorem at the concrete plain words
`John` and `Doe`. -/
theorem C2_witness :
    format_pipeline (("John".toList) ++ ' ' :: ("Doe".toList)) =
      .ok (format_first_name ("John".toList) ++ ' ' :: ("Doe".toList)) ∧
    format_pipeline (format_first_name ("John".toList) ++ ' ' :: ("Doe".toList)) =
      .ok (format_first_name ("John".toList) ++ ' ' :: ("Doe".toList)) :=
  C2_two_plain_words_idempotent ("John".toList) ("Doe".toList) (by decide) (by decide)

theorem procMain_other (strict : Bool) (st : TokState) (c : Char)
    (h1 : c ≠ lbrace) (h2 : c ≠ rbrace) (h3 : c ≠ ',') :
    ∃ st', procMain strict st c = .ok st' ∧ st'.level = st.level ∧ st'.done = st.done := by
  obtain ⟨done, dcs, cur, ccs, word, cas, level, bs, cseq, sc⟩ := st
  simp only [procMain]
  rw [if_neg h1, if_neg h2]
  by_cases hl : level ≠ 0
  · rw [if_pos hl]
    split_ifs <;> exact ⟨_, rfl, rfl, rfl⟩
  · rw [if_neg hl]
    by_cases hw : (c = ',' ∨ isWhite c = true)
    · rw [if_pos hw]
      cases word
      · simp [h3]
      · simp [h3]
    · rw [if_neg hw]
      exact ⟨_, rfl, rfl, rfl⟩

theorem procMain_lbrace (strict : Bool) (st : TokState) :
    ∃ st', procMain strict st lbrace = .ok st' ∧ st'.level = st.level + 1 ∧
      st'.done = st.done := by
  obtain ⟨done, dcs, cur, ccs, word, cas, level, bs, cseq, sc⟩ := st
  simp only [procMain]
  simp

theorem procMain_rbrace_pos (strict : Bool) (st : TokState) (h : st.level ≠ 0) :
    ∃ st', procMain strict st rbrace = .ok st' ∧ st'.level = st.level - 1 ∧
      st'.done = st.done := by
  obtain ⟨done, dcs, cur, ccs, word, cas, level, bs, cseq, sc⟩ := st
  simp at h
  have hne : rbrace ≠ lbrace := by decide
  simp only [procMain]
  simp [hne, h]

theorem procMain_rbrace_zero_strict (st : TokState) (h : st.level = 0) :
    procMain true st rbrace = .error .nameError := by
  obtain ⟨done, dcs, cur, ccs, word, cas, level, bs, cseq, sc⟩ := st
  simp at h
  subst h
  have hne : rbrace ≠ lbrace := by decide
  simp only [procMain]
  simp [hne]

theorem procMain_comma_pos (strict : Bool) (st : TokState) (h : st.level ≠ 0) :
    ∃ st', procMain strict st ',' = .ok st' ∧ st'.level = st.level ∧
      st'.done = st.done := by
  obtain ⟨done, dcs, cur, ccs, word, cas, level, bs, cseq, sc⟩ := st
  simp at h
  have h1 : (',' : Char) ≠ lbrace := by decide
  have h2 : (',' : Char) ≠ rbrace := by decide
  simp only [procMain]
  simp [h1, h2, h]
  split_ifs <;> simp

theorem procMain_comma_zero_lt (strict : Bool) (st : TokState) (h : st.level = 0)
    (hk : st.done.length < 2) :
    ∃ st', procMain strict st ',' = .ok st' ∧ st'.level = st.level ∧
      st'.done.length = st.done.length + 1 := by
  obtain ⟨done, dcs, cur, ccs, word, cas, level, bs, cseq, sc⟩ := st
  simp at h hk
  subst h
  have h1 : (',' : Char) ≠ lbrace := by decide
  have h2 : (',' : Char) ≠ rbrace := by decide
  have h3 : done.length + 1 < 3 := by omega
  simp only [procMain]
  cases word <;> simp [h1, h2, h3]

theorem procMain_comma_zero_ge (st : TokState) (h : st.level = 0)
    (hk : ¬ st.done.length < 2) :
    procMain true st ',' = .error .nameError := by
  obtain ⟨done, dcs, cur, ccs, word, cas, level, bs, cseq, sc⟩ := st
  simp at h hk
  subst h
  have h1 : (',' : Char) ≠ lbrace := by decide
  have h2 : (',' : Char) ≠ rbrace := by decide
  have h3 : ¬ done.length + 1 < 3 := by omega
  simp only [procMain]
  cases word <;> simp [h1, h2, h3]

theorem isWhite_not_special (e : Char) (h : isWhite e = true) :
    e ≠ lbrace ∧ e ≠ rbrace ∧ e ≠ ',' := by
  simp [isWhite, whitespaceChars] at h
  rcases h with rfl | rfl | rfl | rfl | rfl <;> refine ⟨by decide, by decide, by decide⟩

theorem isWhite_not_bslash (e : Char) (h : isWhite e = true) : e ≠ bslash := by
  simp [isWhite, whitespaceChars] at h
  rcases h with rfl | rfl | rfl | rfl | rfl <;> decide

theorem escStep_level_done (st : TokState) (e : Char) :
    (escStep st e).level = st.level ∧ (escStep st e).done = st.done := by
  obtain ⟨done, dcs, cur, ccs, word, cas, level, bs, cseq, sc⟩ := st
  simp only [escStep]
  split_ifs <;> exact ⟨rfl, rfl⟩

theorem pushBslash_level_done (st : TokState) :
    (pushBslash st).level = st.level ∧ (pushBslash st).done = st.done := by
  obtain ⟨done, dcs, cur, ccs, word, cas, level, bs, cseq, sc⟩ := st
  exact ⟨rfl, rfl⟩

theorem tokRun_cons_ok (strict : Bool) (c : Char) (cs : List Char) (st st' : TokState)
    (hc : c ≠ bslash) (h : procMain strict st c = .ok st') :
    tokRun strict (c :: cs) st = tokRun strict cs st' := by
  rw [tokRun_cons_not_bslash strict c cs st hc, h]

theorem tokRun_cons_err (strict : Bool) (c : Char) (cs : List Char) (st : TokState)
    (e : PyErr) (hc : c ≠ bslash) (h : procMain strict st c = .error e) :
    tokRun strict (c :: cs) st = .error e := by
  rw [tokRun_cons_not_bslash strict c cs st hc, h]

theorem tokRun_bw_ok (strict : Bool) (e : Char) (cs' : List Char) (st st' : TokState)
    (hw : isWhite e = true) (h : procMain strict (pushBslash st) e = .ok st') :
    tokRun strict (bslash :: e :: cs') st = tokRun strict cs' st' := by
  rw [tokRun_bslash_white strict e cs' st hw, h]

theorem tokRun_strict_classify : ∀ (s : List Char) (st : TokState),
    st.done.length ≤ 2 →
    (scanErr s st.level st.done.length = none →
      ∃ st', tokRun true s st = .ok st' ∧ st'.level = 0) ∧
    (∀ e, scanErr s st.level st.done.length = some e →
      tokRun true s st = .error e ∨
      (∃ st', tokRun true s st = .ok st' ∧ st'.level ≠ 0 ∧ e = .nameError))
  | [], st => by
    intro hk
    constructor
    · intro hnone
      have : ¬ st.level ≠ 0 := by
        intro hl
        rw [scanErr.eq_def] at hnone
        simp [hl] at hnone
      simp at this
      exact ⟨st, tokRun_nil true st, this⟩
    · intro e hsome
      by_cases hl : st.level ≠ 0
      · right
        refine ⟨st, tokRun_nil true st, hl, ?_⟩
        rw [scanErr.eq_def] at hsome
        simp [hl] at hsome
        exact hsome.symm
      · rw [scanErr.eq_def] at hsome
        simp [hl] at hsome
  | c :: cs, st => by
    intro hk
    by_cases hcb : c = bslash
    · subst hcb
      match cs with
      | [] =>
        have hscan : scanErr [bslash] st.level st.done.length = some .stopIteration := by
          rw [scanErr.eq_def]
          simp
        constructor
        · intro hnone
          rw [hscan] at hnone
          exact absurd hnone (by simp)
        · intro e hsome
          rw [hscan] at hsome
          rw [Option.some_inj] at hsome
          subst hsome
          exact Or.inl (tokRun_bslash_nil true st)
      | e0 :: cs' =>
        have hscan : scanErr (bslash :: e0 :: cs') st.level st.done.length =
            scanErr cs' st.level st.done.length := by
          rw [scanErr.eq_def]
          simp
        by_cases hw : isWhite e0 = true
        · obtain ⟨h1, h2, h3⟩ := isWhite_not_special e0 hw
          obtain ⟨st1, hok, hlvl, hdone⟩ := procMain_other true (pushBslash st) e0 h1 h2 h3
          obtain ⟨hpl, hpd⟩ := pushBslash_level_done st
          rw [hpl] at hlvl
          rw [hpd] at hdone
          have hrun := tokRun_bw_ok true e0 cs' st st1 hw hok
          have ih := tokRun_strict_classify cs' st1 (by rw [hdone]; exact hk)
          rw [hlvl, hdone] at ih
          constructor
          · intro hnone
            rw [hscan] at hnone
            obtain ⟨st2, hr2, hl2⟩ := ih.1 hnone
            exact ⟨st2, by rw [hrun]; exact hr2, hl2⟩
          · intro e he
            rw [hscan] at he
            rcases ih.2 e he with h | ⟨st2, hr2, hl2, he2⟩
            · exact Or.inl (by rw [hrun]; exact h)
            · exact Or.inr ⟨st2, by rw [hrun]; exact hr2, hl2, he2⟩
        · have hrun : tokRun true (bslash :: e0 :: cs') st = tokRun true cs' (escStep st e0) := by
            rw [tokRun_bslash_esc true e0 cs' st (by simpa using hw)]
          obtain ⟨hel, hed⟩ := escStep_level_done st e0
          have ih := tokRun_strict_classify cs' (escStep st e0) (by rw [hed]; exact hk)
          rw [hel, hed] at ih
          constructor
          · intro hnone
            rw [hscan] at hnone
            obtain ⟨st2, hr2, hl2⟩ := ih.1 hnone
            exact ⟨st2, by rw [hrun]; exact hr2, hl2⟩
          · intro e he
            rw [hscan] at he
            rcases ih.2 e he with h | ⟨st2, hr2, hl2, he2⟩
            · exact Or.inl (by rw [hrun]; exact h)
            · exact Or.inr ⟨st2, by rw [hrun]; exact hr2, hl2, he2⟩
    · by_cases hcl : c = lbrace
      · subst hcl
        have hscan : scanErr (lbrace :: cs) st.level st.done.length =
            scanErr cs (st.level + 1) st.done.length := by
          have : lbrace ≠ bslash := by decide
          rw [scanErr.eq_def]
          simp [this]
        obtain ⟨st1, hok, hlvl, hdone⟩ := procMain_lbrace true st
        have hrun := tokRun_cons_ok true lbrace cs st st1 (by decide) hok
        have ih := tokRun_strict_classify cs st1 (by rw [hdone]; exact hk)
        rw [hlvl, hdone] at ih
        constructor
        · intro hnone
          rw [hscan] at hnone
          obtain ⟨st2, hr2, hl2⟩ := ih.1 hnone
          exact ⟨st2, by rw [hrun]; exact hr2, hl2⟩
        · intro e he
          rw [hscan] at he
          rcases ih.2 e he with h | ⟨st2, hr2, hl2, he2⟩
          · exact Or.inl (by rw [hrun]; exact h)
          · exact Or.inr ⟨st2, by rw [hrun]; exact hr2, hl2, he2⟩
      · by_cases hcr : c = rbrace
        · subst hcr
          by_cases hl : st.level = 0
          · have hscan : scanErr (rbrace :: cs) st.level st.done.length =
                some .nameError := by
              have h1 : rbrace ≠ bslash := by decide
              have h2 : rbrace ≠ lbrace := by decide
              rw [scanErr.eq_def]
              simp [h1, h2, hl]
            have herr := procMain_rbrace_zero_strict st hl
            have hrun := tokRun_cons_err true rbrace cs st .nameError (by decide) herr
            constructor
            · intro hnone
              rw [hscan] at hnone
              exact absurd hnone (by simp)
            · intro e he
              rw [hscan, Option.some_inj] at he
              subst he
              exact Or.inl hrun
          · have hscan : scanErr (rbrace :: cs) st.level st.done.length =
                scanErr cs (st.level - 1) st.done.length := by
              have h1 : rbrace ≠ bslash := by decide
              have h2 : rbrace ≠ lbrace := by decide
              rw [scanErr.eq_def]
              simp [h1, h2, hl]
            obtain ⟨st1, hok, hlvl, hdone⟩ := procMain_rbrace_pos true st hl
            have hrun := tokRun_cons_ok true rbrace cs st st1 (by decide) hok
            have ih := tokRun_strict_classify cs st1 (by rw [hdone]; exact hk)
            rw [hlvl, hdone] at ih
            constructor
            · intro hnone
              rw [hscan] at hnone
              obtain ⟨st2, hr2, hl2⟩ := ih.1 hnone
              exact ⟨st2, by rw [hrun]; exact hr2, hl2⟩
            · intro e he
              rw [hscan] at he
              rcases ih.2 e he with h | ⟨st2, hr2, hl2, he2⟩
              · exact Or.inl (by rw [hrun]; exact h)
              · exact Or.inr ⟨st2, by rw [hrun]; exact hr2, hl2, he2⟩
        · by_cases hcc : c = ','
          · subst hcc
            by_cases hl : st.level = 0
            · by_cases hklt : st.done.length < 2
              · have hscan : scanErr (',' :: cs) st.level st.done.length =
                    scanErr cs st.level (st.done.length + 1) := by
                  have h1 : (',' : Char) ≠ bslash := by decide
                  have h2 : (',' : Char) ≠ lbrace := by decide
                  have h3 : (',' : Char) ≠ rbrace := by decide
                  rw [scanErr.eq_def]
                  simp [h1, h2, h3, hl, hklt]
                obtain ⟨st1, hok, hlvl, hdone⟩ := procMain_comma_zero_lt true st hl hklt
                have hrun := tokRun_cons_ok true ',' cs st st1 (by decide) hok
                have ih := tokRun_strict_classify cs st1 (by omega)
                rw [hlvl, hdone] at ih
                constructor
                · intro hnone
                  rw [hscan] at hnone
                  obtain ⟨st2, hr2, hl2⟩ := ih.1 hnone
                  exact ⟨st2, by rw [hrun]; exact hr2, hl2⟩
                · intro e he
                  rw [hscan] at he
                  rcases ih.2 e he with h | ⟨st2, hr2, hl2, he2⟩
                  · exact Or.inl (by rw [hrun]; exact h)
                  · exact Or.inr ⟨st2, by rw [hrun]; exact hr2, hl2, he2⟩
              · have hscan : scanErr (',' :: cs) st.level st.done.length =
                    some .nameError := by
                  have h1 : (',' : Char) ≠ bslash := by decide
                  have h2 : (',' : Char) ≠ lbrace := by decide
                  have h3 : (',' : Char) ≠ rbrace := by decide
                  rw [scanErr.eq_def]
                  simp [h1, h2, h3, hl, hklt]
                have herr := procMain_comma_zero_ge st hl hklt
                have hrun := tokRun_cons_err true ',' cs st .nameError (by decide) herr
                constructor
                · intro hnone
                  rw [hscan] at hnone
                  exact absurd hnone (by simp)
                · intro e he
                  rw [hscan, Option.some_inj] at he
                  subst he
                  exact Or.inl hrun
            · have hscan : scanErr (',' :: cs) st.level st.done.length =
                  scanErr cs st.level st.done.length := by
                have h1 : (',' : Char) ≠ bslash := by decide
                have h2 : (',' : Char) ≠ lbrace := by decide
                have h3 : (',' : Char) ≠ rbrace := by decide
                rw [scanErr.eq_def]
                simp [h1, h2, h3, hl]
              obtain ⟨st1, hok, hlvl, hdone⟩ := procMain_comma_pos true st hl
              have hrun := tokRun_cons_ok true ',' cs st st1 (by decide) hok
              have ih := tokRun_strict_classify cs st1 (by rw [hdone]; exact hk)
              rw [hlvl, hdone] at ih
              constructor
              · intro hnone
                rw [hscan] at hnone
                obtain ⟨st2, hr2, hl2⟩ := ih.1 hnone
                exact ⟨st2, by rw [hrun]; exact hr2, hl2⟩
              · intro e he
                rw [hscan] at he
                rcases ih.2 e he with h | ⟨st2, hr2, hl2, he2⟩
                · exact Or.inl (by rw [hrun]; exact h)
                · exact Or.inr ⟨st2, by rw [hrun]; exact hr2, hl2, he2⟩
          · have hscan : scanErr (c :: cs) st.level st.done.length =
                scanErr cs st.level st.done.length := by
              rw [scanErr.eq_def]
              simp [hcb, hcl, hcr, hcc]
            obtain ⟨st1, hok, hlvl, hdone⟩ := procMain_other true st c hcl hcr hcc
            have hrun := tokRun_cons_ok true c cs st st1 hcb hok
            have ih := tokRun_strict_classify cs st1 (by rw [hdone]; exact hk)
            rw [hlvl, hdone] at ih
            constructor
            · intro hnone
              rw [hscan] at hnone
              obtain ⟨st2, hr2, hl2⟩ := ih.1 hnone
              exact ⟨st2, by rw [hrun]; exact hr2, hl2⟩
            · intro e he
              rw [hscan] at he
              rcases ih.2 e he with h | ⟨st2, hr2, hl2, he2⟩
              · exact Or.inl (by rw [hrun]; exact h)
              · exact Or.inr ⟨st2, by rw [hrun]; exact hr2, hl2, he2⟩

theorem procMain_false_ok (st : TokState) (c : Char) :
    ∃ st', procMain false st c = .ok st' := by
  obtain ⟨done, dcs, cur, ccs, word, cas, level, bs, cseq, sc⟩ := st
  simp only [procMain, Bool.false_eq_true, if_false]
  cases word <;> split_ifs <;> exact ⟨_, rfl⟩

theorem tokRun_false_total : ∀ (s : List Char) (st : TokState),
    (noTrailingEscape s = true → ∃ st', tokRun false s st = .ok st') ∧
    (noTrailingEscape s = false → tokRun false s st = .error .stopIteration)
  | [], st =>
    ⟨fun _ => ⟨st, tokRun_nil false st⟩, fun h => by
      rw [noTrailingEscape.eq_def] at h
      simp at h⟩
  | c :: cs, st => by
    by_cases hcb : c = bslash
    · subst hcb
      match cs with
      | [] =>
        refine ⟨fun h => ?_, fun _ => tokRun_bslash_nil false st⟩
        rw [noTrailingEscape.eq_def] at h
        simp at h
      | e0 :: cs' =>
        have hnt : noTrailingEscape (bslash :: e0 :: cs') = noTrailingEscape cs' := by
          rw [noTrailingEscape.eq_def]
          simp
        by_cases hw : isWhite e0 = true
        · obtain ⟨h1, h2, h3⟩ := isWhite_not_special e0 hw
          obtain ⟨st1, hok, -, -⟩ := procMain_other false (pushBslash st) e0 h1 h2 h3
          have hrun := tokRun_bw_ok false e0 cs' st st1 hw hok
          have ih := tokRun_false_total cs' st1
          rw [hnt]
          exact ⟨fun h => (ih.1 h).imp (fun st2 hr => by rw [hrun]; exact hr),
                 fun h => by rw [hrun]; exact ih.2 h⟩
        · have hrun : tokRun false (bslash :: e0 :: cs') st =
              tokRun false cs' (escStep st e0) :=
            tokRun_bslash_esc false e0 cs' st (by simpa using hw)
          have ih := tokRun_false_total cs' (escStep st e0)
          rw [hnt]
          exact ⟨fun h => (ih.1 h).imp (fun st2 hr => by rw [hrun]; exact hr),
                 fun h => by rw [hrun]; exact ih.2 h⟩
    · have hnt : noTrailingEscape (c :: cs) = noTrailingEscape cs := by
        rw [noTrailingEscape.eq_def]
        simp [hcb]
      obtain ⟨st1, hok⟩ := procMain_false_ok st c
      have hrun := tokRun_cons_ok false c cs st st1 hcb hok
      have ih := tokRun_false_total cs st1
      rw [hnt]
      exact ⟨fun h => (ih.1 h).imp (fun st2 hr => by rw [hrun]; exact hr),
             fun h => by rw [hrun]; exact ih.2 h⟩

theorem tokFinish_ok_of_level0 (strict : Bool) (st : TokState) (h : st.level = 0) :
    ∃ out, tokFinish strict st = .ok out := by
  obtain ⟨done, dcs, cur, ccs, word, cas, level, bs, cseq, sc⟩ := st
  simp at h
  subst h
  simp only [tokFinish]
  simp
  split_ifs <;> exact ⟨_, _, rfl⟩

theorem tokFinish_false_ok (st : TokState) : ∃ out, tokFinish false st = .ok out := by
  obtain ⟨done, dcs, cur, ccs, word, cas, level, bs, cseq, sc⟩ := st
  simp only [tokFinish, Bool.false_eq_true, and_false, if_false]
  split_ifs <;> exact ⟨_, rfl⟩

theorem tokFinish_err_of_level_ne (st : TokState) (h : st.level ≠ 0) :
    tokFinish true st = .error .nameError := by
  obtain ⟨done, dcs, cur, ccs, word, cas, level, bs, cseq, sc⟩ := st
  simp at h
  simp only [tokFinish]
  simp [h]

theorem scanErr_of_strayClose : ∀ (s : List Char) (l k : Nat),
    strayClose s l = true → k ≤ 2 → scanErr s l k = some .nameError
  | [], l, k => by
    intro h _
    rw [strayClose.eq_def] at h
    simp at h
  | c :: cs, l, k => by
    intro h hk
    by_cases hcb : c = bslash
    · subst hcb
      match cs with
      | [] =>
        rw [strayClose.eq_def] at h
        simp at h
      | e :: cs' =>
        have h' : strayClose cs' l = true := by
          rw [strayClose.eq_def] at h
          simpa using h
        rw [scanErr.eq_def]
        simp
        exact scanErr_of_strayClose cs' l k h' hk
    · by_cases hcl : c = lbrace
      · subst hcl
        have h' : strayClose cs (l + 1) = true := by
          rw [strayClose.eq_def] at h
          have : lbrace ≠ bslash := by decide
          simpa [this] using h
        rw [scanErr.eq_def]
        have h1 : lbrace ≠ bslash := by decide
        simp [h1]
        exact scanErr_of_strayClose cs (l + 1) k h' hk
      · by_cases hcr : c = rbrace
        · subst hcr
          have h1 : rbrace ≠ bslash := by decide
          have h2 : rbrace ≠ lbrace := by decide
          by_cases hl : l = 0
          · rw [scanErr.eq_def]
            simp [h1, h2, hl]
          · have h' : strayClose cs (l - 1) = true := by
              rw [strayClose.eq_def] at h
              simpa [h1, h2, hl] using h
            rw [scanErr.eq_def]
            simp [h1, h2, hl]
            exact scanErr_of_strayClose cs (l - 1) k h' hk
        · have h' : strayClose cs l = true := by
            rw [strayClose.eq_def] at h
            simpa [hcb, hcl, hcr] using h
          by_cases hcc : c = ','
          · subst hcc
            have h1 : (',' : Char) ≠ bslash := by decide
            have h2 : (',' : Char) ≠ lbrace := by decide
            have h3 : (',' : Char) ≠ rbrace := by decide
            by_cases hl : l = 0
            · subst hl
              by_cases hk2 : k < 2
              · rw [scanErr.eq_def]
                simp [h1, h2, h3, hk2]
                exact scanErr_of_strayClose cs 0 (k + 1) h' (by omega)
              · rw [scanErr.eq_def]
                simp [h1, h2, h3, hk2]
            · rw [scanErr.eq_def]
              simp [h1, h2, h3, hl]
              exact scanErr_of_strayClose cs l k h' hk
          · rw [scanErr.eq_def]
            simp [hcb, hcl, hcr, hcc]
            exact scanErr_of_strayClose cs l k h' hk

theorem noTrailing_of_scanErr_stop : ∀ (s : List Char) (l k : Nat),
    scanErr s l k = some .stopIteration → noTrailingEscape s = false
  | [], l, k => by
    intro h
    rw [scanErr.eq_def] at h
    by_cases hl : l ≠ 0 <;> simp [hl] at h
  | c :: cs, l, k => by
    intro h
    by_cases hcb : c = bslash
    · subst hcb
      match cs with
      | [] =>
        rw [noTrailingEscape.eq_def]
        simp
      | e :: cs' =>
        have h' : scanErr cs' l k = some .stopIteration := by
          rw [scanErr.eq_def] at h
          simpa using h
        rw [noTrailingEscape.eq_def]
        simp
        exact noTrailing_of_scanErr_stop cs' l k h'
    · have hnt : noTrailingEscape (c :: cs) = noTrailingEscape cs := by
        rw [noTrailingEscape.eq_def]
        simp [hcb]
      rw [hnt]
      by_cases hcl : c = lbrace
      · subst hcl
        have h1 : lbrace ≠ bslash := by decide
        rw [scanErr.eq_def] at h
        simp [h1] at h
        exact noTrailing_of_scanErr_stop cs (l + 1) k h
      · by_cases hcr : c = rbrace
        · subst hcr
          have h1 : rbrace ≠ bslash := by decide
          have h2 : rbrace ≠ lbrace := by decide
          rw [scanErr.eq_def] at h
          by_cases hl : l = 0
          · simp [h1, h2, hl] at h
          · simp [h1, h2, hl] at h
            exact noTrailing_of_scanErr_stop cs (l - 1) k h
        · by_cases hcc : c = ','
          · subst hcc
            have h1 : (',' : Char) ≠ bslash := by decide
            have h2 : (',' : Char) ≠ lbrace := by decide
            have h3 : (',' : Char) ≠ rbrace := by decide
            rw [scanErr.eq_def] at h
            by_cases hl : l = 0
            · subst hl
              by_cases hk2 : k < 2
              · simp [h1, h2, h3, hk2] at h
                exact noTrailing_of_scanErr_stop cs 0 (k + 1) h
              · simp [h1, h2, h3, hk2] at h
            · simp [h1, h2, h3, hl] at h
              exact noTrailing_of_scanErr_stop cs l k h
          · rw [scanErr.eq_def] at h
            simp [hcb, hcl, hcr, hcc] at h
            exact noTrailing_of_scanErr_stop cs l k h

/-- C3 amended: for any input with balanced braces, at most two top-level
commas and no trailing unescaped backslash (that is, `scanErr` reports no
failure), the strict tokenizer returns normally; any input with an
unmatched closing brace makes strict mode raise (`NameError`, via the
unbound-variable slip at the intended `InvalidName` site); and non-strict
mode never raises on inputs without a trailing unescaped backslash — in
particular it repairs `"Foo}"` to the single word `"{Foo}"`. -/
theorem C3_tokenizer_error_behavior :
    (∀ s : List Char, scanErr s 0 0 = none →
        ∃ out, split_latex_to_sections s true = .ok out) ∧
    (∀ s : List Char, strayClose s 0 = true →
        split_latex_to_sections s true = .error .nameError) ∧
    (∀ s : List Char, noTrailingEscape s = true →
        ∃ out, split_latex_to_sections s false = .ok out) ∧
    split_latex_to_sections ("Foo\x7d".toList) false =
      .ok ([[("\x7bFoo\x7d".toList)]], [[1]]) := by
  refine ⟨?_, ?_, ?_, by decide⟩
  · intro s hnone
    have hcl := tokRun_strict_classify s initTok (by simp [initTok])
    obtain ⟨st', hrun, hlvl⟩ := hcl.1 hnone
    obtain ⟨out, hfin⟩ := tokFinish_ok_of_level0 true st' hlvl
    refine ⟨out, ?_⟩
    unfold split_latex_to_sections
    rw [hrun]
    exact hfin
  · intro s hstray
    have hscan := scanErr_of_strayClose s 0 0 hstray (by omega)
    have hcl := tokRun_strict_classify s initTok (by simp [initTok])
    rcases hcl.2 .nameError hscan with h | ⟨st', hrun, hlvl, -⟩
    · unfold split_latex_to_sections
      rw [h]
    · unfold split_latex_to_sections
      rw [hrun]
      exact tokFinish_err_of_level_ne st' hlvl
  · intro s hnt
    obtain ⟨st', hrun⟩ := (tokRun_false_total s initTok).1 hnt
    obtain ⟨out, hfin⟩ := tokFinish_false_ok st'
    refine ⟨out, ?_⟩
    unfold split_latex_to_sections
    rw [hrun]
    exact hfin

/-- C3 witness: `C3_tokenizer_error_behavior` applied to `"a b"`
(balanced, strict mode succeeds) and `"Foo}"` (stray closing brace:
strict raises `NameError`, non-strict succeeds). -/
theorem C3_witness :
    (∃ out, split_latex_to_sections ("a b".toList) true = .ok out) ∧
    split_latex_to_sections ("Foo\x7d".toList) true = .error .nameError ∧
    (∃ out, split_latex_to_sections ("Foo\x7d".toList) false = .ok out) :=
  ⟨C3_tokenizer_error_behavior.1 ("a b".toList) (by decide),
   C3_tokenizer_error_behavior.2.1 ("Foo\x7d".toList) (by decide),
   C3_tokenizer_error_behavior.2.2.1 ("Foo\x7d".toList) (by decide)⟩

/-- C10 amended: whenever the scan reaches the final backslash unescaped
with no earlier strict-mode failure (`scanErr` classifies the input as a
bare trailing escape), strict mode raises `StopIteration`; and in
non-strict mode every input with a trailing unescaped backslash raises
`StopIteration`.  (An escaped final backslash returns normally; see the
counterexample.) -/
theorem C10_trailing_escape_stopiteration :
    (∀ s : List Char, scanErr s 0 0 = some .stopIteration →
        split_latex_to_sections s true = .error .stopIteration ∧
        split_latex_to_sections s false = .error .stopIteration) ∧
    (∀ s : List Char, noTrailingEscape s = false →
        split_latex_to_sections s false = .error .stopIteration) := by
  have hfalse : ∀ s : List Char, noTrailingEscape s = false →
      split_latex_to_sections s false = .error .stopIteration := by
    intro s hnt
    have h := (tokRun_false_total s initTok).2 hnt
    unfold split_latex_to_sections
    rw [h]
  refine ⟨fun s hscan => ⟨?_, hfalse s (noTrailing_of_scanErr_stop s 0 0 hscan)⟩, hfalse⟩
  have hcl := tokRun_strict_classify s initTok (by simp [initTok])
  rcases hcl.2 .stopIteration hscan with h | ⟨st', hrun, hlvl, he⟩
  · unfold split_latex_to_sections
    rw [h]
  · exact absurd he (by simp)

/-- C10 witness: `C10_trailing_escape_stopiteration` at the input `"x\"`,
whose final backslash is unescaped. -/
theorem C10_witness :
    split_latex_to_sections ("x\\".toList) true = .error .stopIteration ∧
    split_latex_to_sections ("x\\".toList) false = .error .stopIteration :=
  C10_trailing_escape_stopiteration.1 ("x\\".toList) (by decide)
